import Mathlib

/-!
# OpenFPGA: bitstream-manager utilities and the module name map

A shallow embedding of

* `libs/libfpgabitstream/src/bitstream_manager_utils.cpp`
* `libs/libnamemanager/src/base/module_name_map.{h,cpp}`
* `vpr7_x2p/vpr/SRC/fpga_x2p/base/fpga_x2p_naming.cpp`
* the functions declared in `openfpga/src/utils/fabric_bitstream_utils.h` and
  `openfpga/src/annotation/fabric_tile.h`

together with theorems relating the embedded code to the properties documented
for it.

Conventions.

* `vtr::StrongId` identifiers are wrapped integers whose sentinel `INVALID()`
  is `-1`.
* `std::vector` is `List`; `push_back x` is `· ++ [x]`; `insert(begin(), x)` is
  `x :: ·`.
* `size_t` counters are `Nat`: every counter below is bounded by the number of
  identifiers stored in the manager, which are themselves `size_t`-indexed, so
  no wrap-around can occur on a manager that fits in memory.
* A `while (true == ...)` loop or a recursion whose termination depends on the
  data is given a fuel argument; `none` / `Res.diverge` means the fuel ran out.
-/

namespace openfpga

/-! ## Identifiers -/

/-- Identifier of a configuration block (`vtr::StrongId`, an `int` with sentinel `-1`). -/
structure ConfigBlockId where
  id : Int
deriving DecidableEq, Repr

/-- Identifier of a configuration bit (`vtr::StrongId`, an `int` with sentinel `-1`). -/
structure ConfigBitId where
  id : Int
deriving DecidableEq, Repr

/-- The sentinel `ConfigBlockId::INVALID()`. -/
def ConfigBlockId.INVALID : ConfigBlockId := ⟨-1⟩

/-- The sentinel `ConfigBitId::INVALID()`. -/
def ConfigBitId.INVALID : ConfigBitId := ⟨-1⟩

/-! ## The bitstream manager interface -/

/-- Modelled from the spec: class `BitstreamManager` (bitstream_manager.h/.cpp) is not part
of the listed sources. The utilities only use its read-only accessors, which are taken
here as fields, with the meaning given in the contract of section 4.1:
`valid(block)`, `parent(block)`, `children(block)`, `bits(block)`, `name(block)`,
`owner(bit)`, and the range `blocks()` of all block identifiers. -/
structure BitstreamManager where
  blocks : List ConfigBlockId
  valid_block_id : ConfigBlockId → Bool
  block_name : ConfigBlockId → String
  block_parent : ConfigBlockId → ConfigBlockId
  block_children : ConfigBlockId → List ConfigBlockId
  block_bits : ConfigBlockId → List ConfigBitId
  bit_parent_block : ConfigBitId → ConfigBlockId

/-! ## `find_bitstream_manager_block_hierarchy` -/

/-- The `while (true == bitstream_manager.valid_block_id(temp_block))` loop of
`find_bitstream_manager_block_hierarchy`. The fuel bounds the number of executions of the
loop body; `none` is returned when the loop condition still holds with no fuel left. -/
def block_hierarchy_loop (bm : BitstreamManager) (top_block_name : String) :
    Nat → ConfigBlockId → List ConfigBlockId → Option (List ConfigBlockId)
  | 0, temp_block, block_hierarchy =>
    if bm.valid_block_id temp_block = true then none else some block_hierarchy
  | fuel + 1, temp_block, block_hierarchy =>
    if bm.valid_block_id temp_block = true then
      if top_block_name ≠ "" ∧ bm.block_name temp_block = top_block_name then
        some (block_hierarchy ++ [temp_block])
      else
        block_hierarchy_loop bm top_block_name fuel (bm.block_parent temp_block)
          (block_hierarchy ++ [temp_block])
    else some block_hierarchy

/-- Embedding of `find_bitstream_manager_block_hierarchy`: run the loop from `block`
with an empty vector, then `std::reverse` the vector. -/
def find_bitstream_manager_block_hierarchy (fuel : Nat) (bm : BitstreamManager)
    (block : ConfigBlockId) (top_block_name : String) : Option (List ConfigBlockId) :=
  (block_hierarchy_loop bm top_block_name fuel block []).map List.reverse

/-! ### Vocabulary for stating the hierarchy properties -/

/-- The `k`-th ancestor of `b`: `parent` applied `k` times (`ancestor 0 b = b`). -/
def ancestor (bm : BitstreamManager) (k : Nat) (b : ConfigBlockId) : ConfigBlockId :=
  bm.block_parent^[k] b

/-- Block `b` has depth `d`: `b` and its first `d` ancestors are valid and the parent of
the `d`-th ancestor (the root) is not. -/
def HasDepth (bm : BitstreamManager) (b : ConfigBlockId) (d : Nat) : Prop :=
  (∀ k, k ≤ d → bm.valid_block_id (ancestor bm k b) = true) ∧
    bm.valid_block_id (ancestor bm (d + 1) b) = false

/-- Parent links are acyclic: no valid block is its own `k`-th ancestor for `k > 0`. -/
def ParentAcyclic (bm : BitstreamManager) : Prop :=
  ∀ b k, bm.valid_block_id b = true → 0 < k → ancestor bm k b ≠ b

/-- Every valid block identifier is listed in `blocks()`. -/
def BlocksComplete (bm : BitstreamManager) : Prop :=
  ∀ b, bm.valid_block_id b = true → b ∈ bm.blocks

/-- The upward walk `[b, parent b, ..., parent^k b]`. -/
def upward_chain (bm : BitstreamManager) : Nat → ConfigBlockId → List ConfigBlockId
  | 0, b => [b]
  | k + 1, b => b :: upward_chain bm k (bm.block_parent b)

/-! ## `find_bitstream_manager_top_blocks` -/

/-- The range-for loop of `find_bitstream_manager_top_blocks` over `blocks()`: a block
whose parent differs from `ConfigBlockId::INVALID()` is skipped (`continue`), any other
block is pushed to the back of `top_blocks`. -/
def top_blocks_loop (bm : BitstreamManager) :
    List ConfigBlockId → List ConfigBlockId → List ConfigBlockId
  | [], top_blocks => top_blocks
  | blk :: rest, top_blocks =>
    if ConfigBlockId.INVALID ≠ bm.block_parent blk then
      top_blocks_loop bm rest top_blocks
    else
      top_blocks_loop bm rest (top_blocks ++ [blk])

/-- Embedding of `find_bitstream_manager_top_blocks`. -/
def find_bitstream_manager_top_blocks (bm : BitstreamManager) : List ConfigBlockId :=
  top_blocks_loop bm bm.blocks []

/-! ## `find_bitstream_manager_config_bit_index_in_parent_block` -/

/-- The range-for loop of `find_bitstream_manager_config_bit_index_in_parent_block`:
`break` at the first candidate equal to `bit_id`, otherwise `curr_index++`. -/
def bit_index_loop (bit_id : ConfigBitId) : List ConfigBitId → Nat → Nat
  | [], curr_index => curr_index
  | cand_bit :: rest, curr_index =>
    if cand_bit = bit_id then curr_index
    else bit_index_loop bit_id rest (curr_index + 1)

/-- Embedding of `find_bitstream_manager_config_bit_index_in_parent_block`. -/
def find_bitstream_manager_config_bit_index_in_parent_block (bm : BitstreamManager)
    (bit_id : ConfigBitId) : Nat :=
  bit_index_loop bit_id (bm.block_bits (bm.bit_parent_block bit_id)) 0

/-! ## `find_bitstream_manager_config_bit_index_in_grandparent_block` -/

/-- The range-for loop of `find_bitstream_manager_config_bit_index_in_grandparent_block`
over `block_children(grandparent_blk)`: a candidate different from `parent_blk` adds
`block_bits(cand_blk).size()`; the candidate equal to `parent_blk` adds the index of the bit
in its parent block and leaves the loop. -/
def grandparent_index_loop (bm : BitstreamManager) (bit_id : ConfigBitId)
    (parent_blk : ConfigBlockId) : List ConfigBlockId → Nat → Nat
  | [], curr_index => curr_index
  | cand_blk :: rest, curr_index =>
    if cand_blk ≠ parent_blk then
      grandparent_index_loop bm bit_id parent_blk rest
        (curr_index + (bm.block_bits cand_blk).length)
    else
      curr_index + find_bitstream_manager_config_bit_index_in_parent_block bm bit_id

/-- Embedding of `find_bitstream_manager_config_bit_index_in_grandparent_block`. -/
def find_bitstream_manager_config_bit_index_in_grandparent_block (bm : BitstreamManager)
    (bit_id : ConfigBitId) : Nat :=
  let parent_blk := bm.bit_parent_block bit_id
  let grandparent_blk := bm.block_parent parent_blk
  grandparent_index_loop bm bit_id parent_blk (bm.block_children grandparent_blk) 0

/-! ## `rec_find_bitstream_manager_block_sum_of_bits` -/

/-- Outcome of a computation that may abort on an assertion or exhaust its fuel. -/
inductive Res (α : Type) where
  | val : α → Res α
  | assert_fail : Res α
  | diverge : Res α
deriving DecidableEq, Repr

/-- The range-for loop of `rec_find_bitstream_manager_block_sum_of_bits` over
`block_children(block)`: `sum_of_bits += <recursive call on child_block>`. A recursive call
that aborts or does not return makes the whole loop do the same. -/
def sum_of_bits_loop (rec_call : ConfigBlockId → Res Nat) :
    List ConfigBlockId → Nat → Res Nat
  | [], sum_of_bits => Res.val sum_of_bits
  | child_block :: rest, sum_of_bits =>
    match rec_call child_block with
    | Res.val n => sum_of_bits_loop rec_call rest (sum_of_bits + n)
    | Res.assert_fail => Res.assert_fail
    | Res.diverge => Res.diverge

/-- Modelled from the spec: the macro `VTR_ASSERT_SAFE` of `vtr_assert.h` is not part of the
listed sources. Section 7: a structural-invariant violation is reported as a fatal
assertion. The statements after the assertion run only when the asserted condition holds;
otherwise the outcome is `Res.assert_fail`. -/
def VTR_ASSERT_SAFE {α : Type} (condition : Bool) (continuation : Res α) : Res α :=
  if condition = true then continuation else Res.assert_fail

/-- Embedding of `rec_find_bitstream_manager_block_sum_of_bits`. The fuel bounds the
recursion depth. -/
def rec_find_bitstream_manager_block_sum_of_bits (bm : BitstreamManager) :
    Nat → ConfigBlockId → Res Nat
  | 0, _ => Res.diverge
  | fuel + 1, block =>
    if 0 < (bm.block_bits block).length then
      VTR_ASSERT_SAFE (bm.block_children block).isEmpty
        (Res.val (bm.block_bits block).length)
    else
      sum_of_bits_loop (fun child_block =>
        rec_find_bitstream_manager_block_sum_of_bits bm fuel child_block)
        (bm.block_children block) 0

/-! ### Vocabulary for stating the bit-count properties -/

/-- The forest below the list of blocks `bs` is finite and acyclic, and `leaves` lists its
leaf blocks (the blocks without children) from left to right: a block without children is
its own only leaf; a block with children contributes the leaves of the forest of its
children. -/
inductive ForestLeaves (bm : BitstreamManager) :
    List ConfigBlockId → List ConfigBlockId → Prop
  | nil : ForestLeaves bm [] []
  | leaf (b : ConfigBlockId) (rest leaves : List ConfigBlockId) :
      bm.block_children b = [] → ForestLeaves bm rest leaves →
      ForestLeaves bm (b :: rest) (b :: leaves)
  | node (b : ConfigBlockId) (rest below leaves : List ConfigBlockId) :
      bm.block_children b ≠ [] → ForestLeaves bm (bm.block_children b) below →
      ForestLeaves bm rest leaves → ForestLeaves bm (b :: rest) (below ++ leaves)

/-- The structural invariant of the data model: no block owns both bits and children. -/
def ChildrenXorBits (bm : BitstreamManager) : Prop :=
  ∀ b, bm.block_bits b = [] ∨ bm.block_children b = []

/-- The siblings that precede `p` in the list `children`. -/
def preceding_siblings (p : ConfigBlockId) (children : List ConfigBlockId) :
    List ConfigBlockId :=
  children.takeWhile (fun c => decide (c ≠ p))

/-- The offset described for `bit_index_in_grandparent`, following the words of the
specification and not the code: with `P = owner(bit)` and `G = parent(P)`, the sum over the
siblings `S` that precede `P` in `children(G)` of the total bit count of the subtree of `S`
(`rec_find_bitstream_manager_block_sum_of_bits(S)`), plus `bit_index_in_parent(bit)`.
The summation starts from the index in the parent block and adds the subtree counts one by
one; it has a value when every subtree count has one. -/
def bit_index_in_grandparent_spec (fuel : Nat) (bm : BitstreamManager)
    (bit : ConfigBitId) : Res Nat :=
  sum_of_bits_loop (fun s => rec_find_bitstream_manager_block_sum_of_bits bm fuel s)
    (preceding_siblings (bm.bit_parent_block bit)
      (bm.block_children (bm.block_parent (bm.bit_parent_block bit))))
    (find_bitstream_manager_config_bit_index_in_parent_block bm bit)

/-! ## `reverse_split_bit_path_to_blocks` -/

/-- The call `path.find_first_of(".")` for the one-character set: position of the first
occurrence of `c`, with `none` for `std::string::npos`. -/
def find_first_of (c : Char) : List Char → Option Nat
  | [] => none
  | x :: xs => if x = c then some 0 else (find_first_of c xs).map (· + 1)

/-- The `while (index != std::string::npos)` loop of `reverse_split_bit_path_to_blocks`
followed by the final `if (path.size())`: `substr(0, index)` is `take index`,
`substr(index + 1)` is `drop (index + 1)`, and `blocks.insert(blocks.begin(), s)` is
`s :: blocks`. The path gets strictly shorter in every iteration. -/
def reverse_split_loop (path : List Char) (blocks : List (List Char)) : List (List Char) :=
  match h : find_first_of '.' path with
  | some index =>
    reverse_split_loop (path.drop (index + 1)) (path.take index :: blocks)
  | none => if path.length ≠ 0 then path :: blocks else blocks
termination_by path.length
decreasing_by
  have key : ∀ (p : List Char) (i : Nat), find_first_of '.' p = some i → i < p.length := by
    intro p
    induction p with
    | nil => intro i hi; simp [find_first_of] at hi
    | cons x xs ih =>
      intro i hi
      by_cases hx : x = '.'
      · simp [find_first_of, hx] at hi
        subst hi
        simp
      · simp only [find_first_of, hx, if_false, Option.map_eq_some'] at hi
        obtain ⟨j, hj, rfl⟩ := hi
        have := ih j hj
        simp only [List.length_cons]
        omega
  have := key path index h
  simp only [List.length_drop]
  omega

/-- Embedding of `reverse_split_bit_path_to_blocks`. -/
def reverse_split_bit_path_to_blocks (path : String) : List String :=
  (reverse_split_loop path.data []).map String.mk

/-- Segments joined with `'.'` as a character sequence: `s1.s2. ... .sn`. -/
def join_with_dots : List (List Char) → List Char
  | [] => []
  | [s] => s
  | s :: t :: rest => s ++ '.' :: join_with_dots (t :: rest)

/-! ### Vocabulary for stating the path-splitting properties -/

/-- All the segments of a path, following the words of the specification and not the code:
the pieces of the path between its dots, in order, empty pieces included. -/
def dot_segments (path : String) : List String :=
  (List.splitOn '.' path.data).map String.mk

/-- A list of segments without its last segment when that one is empty. -/
def drop_trailing_empty (segs : List (List Char)) : List (List Char) :=
  if segs.getLast? = some [] then segs.dropLast else segs

/-- The segments of a path without the empty segment that follows a trailing dot (or that
is the only segment of the empty path). -/
def dot_segments_trimmed (path : String) : List String :=
  (drop_trailing_empty (List.splitOn '.' path.data)).map String.mk

/-! ## `ModuleNameMap` -/

/-- A `std::map<std::string, std::string>` as an association list with at most one entry
per key. -/
abbrev StrMap := List (String × String)

/-- Lookup `m.find(k)`: `none` stands for `m.end()`. -/
def StrMap.find (m : StrMap) (k : String) : Option String :=
  (List.find? (fun e => decide (e.1 = k)) m).map Prod.snd

/-- The call `m.erase(k)`. -/
def StrMap.erase (m : StrMap) (k : String) : StrMap :=
  List.filter (fun e => decide (e.1 ≠ k)) m

/-- The assignment `m[k] = v`. -/
def StrMap.assign (m : StrMap) (k v : String) : StrMap :=
  (k, v) :: StrMap.erase m k

/-- Modelled from the spec: `command_exit_codes.h` is not part of the listed sources; the
header of `set_tag_to_name_pair` documents the failure code as 1. -/
def CMD_EXEC_FATAL_ERROR : Int := 1

/-- The two private maps of class `ModuleNameMap`. -/
structure ModuleNameMap where
  tag2names_ : StrMap
  name2tags_ : StrMap
deriving DecidableEq, Repr

/-- A default-constructed `ModuleNameMap`: both maps are empty. -/
def ModuleNameMap.empty : ModuleNameMap := ⟨[], []⟩

/-- Embedding of `ModuleNameMap::name`: the customized name bound to `tag`, and the empty
string (after logging an error) when the tag is unknown. -/
def ModuleNameMap.name (m : ModuleNameMap) (tag : String) : String :=
  match StrMap.find m.tag2names_ tag with
  | none => ""
  | some v => v

/-- Embedding of `ModuleNameMap::set_tag_to_name_pair`: the new state of the object and the
returned `int`. The function body ends after `name2tags_.erase(name)` without a `return`
statement, so on that path no value is returned: this is `none`. -/
def ModuleNameMap.set_tag_to_name_pair (m : ModuleNameMap) (tag name : String) :
    ModuleNameMap × Option Int :=
  let result := StrMap.find m.name2tags_ name
  if result ≠ none ∧ result ≠ some tag then
    (m, some CMD_EXEC_FATAL_ERROR)
  else
    let name2tags_ := StrMap.assign m.name2tags_ name tag
    let tag2names_ := StrMap.assign m.tag2names_ tag name
    let name2tags_ := StrMap.erase name2tags_ name
    (⟨tag2names_, name2tags_⟩, none)

/-- The object state after a sequence of `set_tag_to_name_pair(tag, name)` calls. -/
def ModuleNameMap.set_all (m : ModuleNameMap) : List (String × String) → ModuleNameMap
  | [] => m
  | (tag, name) :: rest =>
    ModuleNameMap.set_all (ModuleNameMap.set_tag_to_name_pair m tag name).1 rest

/-- Tag `t` is bound in the map. -/
def ModuleNameMap.bound (m : ModuleNameMap) (t : String) : Prop :=
  StrMap.find m.tag2names_ t ≠ none

/-- The call `std::to_string(n)` on a `size_t`: the decimal representation of `n`. -/
def to_string (n : Nat) : String := Nat.repr n

/-- Modelled from the spec: the enumeration of circuit model types is declared outside the
listed sources. The constants named in `fpga_x2p_naming.cpp` are separate constructors;
every other enumerator is `other n`. -/
inductive e_spice_model_type where
  | SPICE_MODEL_MUX : e_spice_model_type
  | SPICE_MODEL_LUT : e_spice_model_type
  | SPICE_MODEL_GATE : e_spice_model_type
  | other : Nat → e_spice_model_type
deriving DecidableEq, Repr

/-- Identifier of a circuit model (`vtr::StrongId`). -/
structure CircuitModelId where
  id : Int
deriving DecidableEq, Repr

/-- Modelled from the spec: class `CircuitLibrary` is declared outside the listed sources;
the two accessors used by `generate_verilog_mux_subckt_name` are taken as fields. -/
structure CircuitLibrary where
  model_name : CircuitModelId → String
  model_type : CircuitModelId → e_spice_model_type

/-- Embedding of `generate_verilog_mux_node_name`. -/
def generate_verilog_mux_node_name (node_level : Nat) ( add_buffer_postfix : Bool) :
    String :=
  let node_name := "mux_l" ++ to_string node_level ++ "_in"
  if add_buffer_postfix = true then node_name ++ "_buf" else node_name

/-- Embedding of `generate_verilog_mux_subckt_name`. `VTR_ASSERT` aborts the program when
its condition is false: the outcome is then `Res.assert_fail`. The statement
`if (!postfix.empty()) module_name += postfix` is kept as written. -/
def generate_verilog_mux_subckt_name (circuit_lib : CircuitLibrary)
    (circuit_model : CircuitModelId) (mux_size : Nat) (postfix_str : String) :
    Res String :=
  let module_name := circuit_lib.model_name circuit_model
  if e_spice_model_type.SPICE_MODEL_MUX = circuit_lib.model_type circuit_model then
    let module_name := module_name ++ "_size"
    let module_name := module_name ++ to_string mux_size
    Res.val (if postfix_str ≠ "" then module_name ++ postfix_str else module_name)
  else if e_spice_model_type.SPICE_MODEL_LUT = circuit_lib.model_type circuit_model then
    let module_name := module_name ++ "_mux"
    Res.val (if postfix_str ≠ "" then module_name ++ postfix_str else module_name)
  else Res.assert_fail

/-! ## Bitstream compression metrics of `fabric_bitstream_utils.h` -/

/-- Modelled from the spec: `fabric_bitstream_utils.cpp` and class `FabricBitstream` are not
part of the listed sources, only the declaration in `fabric_bitstream_utils.h` is. Section 4.3:
`max_regional_size(regions)` returns the maximum element count across all regions; 0 if
there are no regions; a zero-length region contributes 0 and is never excluded. A region is
its ordered sequence of bit values; the scan keeps the largest size seen so far, starting
from 0. -/
def find_fabric_regional_bitstream_max_size (regions : List (List Bool)) : Nat :=
  regions.foldl (fun regional_bitstream_max_size region =>
    if regional_bitstream_max_size < region.length then region.length
    else regional_bitstream_max_size) 0

/-- Modelled from the spec: `fabric_bitstream_utils.cpp` is not part of the listed sources,
only the declaration in `fabric_bitstream_utils.h` is. Section 4.3:
`chain_skip_length(sequence, skip_value)` returns the length of the maximal leading run of
elements equal to `skip_value`; 0 if the sequence is empty or its first element differs
from `skip_value`. The scan counts elements from the front and stops at the first one that
differs from `bit_value_to_skip`. -/
def find_configuration_chain_fabric_bitstream_size_to_be_skipped :
    List Bool → Bool → Nat
  | [], _ => 0
  | bit_value :: rest, bit_value_to_skip =>
    if bit_value_to_skip ≠ bit_value then 0
    else find_configuration_chain_fabric_bitstream_size_to_be_skipped rest
      bit_value_to_skip + 1

/-! ## `FabricTile` -/

/-- Identifier of a fabric tile (`vtr::StrongId`, sentinel `-1`). -/
structure FabricTileId where
  id : Int
deriving DecidableEq, Repr

/-- The sentinel `FabricTileId::INVALID()`. -/
def FabricTileId.INVALID : FabricTileId := ⟨-1⟩

/-- Modelled from the spec: the device model `DeviceRRGSB` is not part of the listed sources.
Section 6: it supplies the structural descriptor (signature) of every tile and a
structural-equality predicate over those descriptors. -/
structure DeviceRRGSB (σ : Type) where
  signature : FabricTileId → σ
  equal : σ → σ → Bool

/-- The data of class `FabricTile` used by `build_unique_tiles` and `unique_tile`: the tile
identifiers in creation order (`ids_`), the coordinate of every tile (`coords_`, a
`vtr::vector` indexed by tile identifier), the table `unique_tile_ids_` from coordinate to
the identifier of the unique tile (entries nearer the head are newer), and the cached
device model. -/
structure FabricTile (σ : Type) where
  ids_ : List FabricTileId
  coords_ : FabricTileId → Nat × Nat
  unique_tile_ids_ : List ((Nat × Nat) × FabricTileId)
  device_rr_gsb_ : DeviceRRGSB σ

/-- The comparison of a tile against the representatives discovered so far, in order of
discovery: the first representative whose signature is structurally equal to the one of
the tile. -/
def find_equal_representative {σ : Type} (dev : DeviceRRGSB σ)
    (representatives : List FabricTileId) (tile : FabricTileId) : Option FabricTileId :=
  representatives.find? (fun r => dev.equal (dev.signature r) (dev.signature tile))

/-- The loop of `build_unique_tiles` over the tiles in creation order, with the list of
representatives discovered so far and the table built so far: on a match the coordinate of
the tile is recorded as mapping to the existing representative; otherwise the tile is
registered as a new representative and its coordinate maps to itself. -/
def build_unique_tiles_loop {σ : Type} (dev : DeviceRRGSB σ)
    (coords : FabricTileId → Nat × Nat) :
    List FabricTileId → List FabricTileId → List ((Nat × Nat) × FabricTileId) →
      List FabricTileId × List ((Nat × Nat) × FabricTileId)
  | [], representatives, table => (representatives, table)
  | tile :: rest, representatives, table =>
    match find_equal_representative dev representatives tile with
    | some r => build_unique_tiles_loop dev coords rest representatives
        ((coords tile, r) :: table)
    | none => build_unique_tiles_loop dev coords rest (representatives ++ [tile])
        ((coords tile, tile) :: table)

/-- Modelled from the spec: `fabric_tile.cpp` is not part of the listed sources, only the class
declaration in `fabric_tile.h` is. Section 4.2: `build_unique_tiles()` visits each tile in
creation order, compares its structural signature against the signatures of the previously
discovered representatives with the equality supplied by the device model, and produces
the complete coordinate to representative table. -/
def FabricTile.build_unique_tiles {σ : Type} (ft : FabricTile σ) : FabricTile σ :=
  { ft with unique_tile_ids_ :=
      (build_unique_tiles_loop ft.device_rr_gsb_ ft.coords_ ft.ids_ [] []).2 }

/-- Modelled from the spec: `fabric_tile.cpp` is not part of the listed sources. Section 4.2:
`unique_tile(coord)` is a table lookup that returns the invalid sentinel for a coordinate
never assigned or before `build_unique_tiles()` ran. -/
def FabricTile.unique_tile {σ : Type} (ft : FabricTile σ) (coord : Nat × Nat) :
    FabricTileId :=
  match ft.unique_tile_ids_.find? (fun e => decide (e.1 = coord)) with
  | some e => e.2
  | none => FabricTileId.INVALID

/-- The injected predicate is a structural equality: reflexive, symmetric, transitive. -/
def IsStructuralEquality {σ : Type} (equal : σ → σ → Bool) : Prop :=
  (∀ a, equal a a = true) ∧ (∀ a b, equal a b = true → equal b a = true) ∧
    (∀ a b c, equal a b = true → equal b c = true → equal a c = true)

/-- A sample grid of four tiles in a row whose signature is the parity of the tile
identifier: the tiles 0 and 2 share a structure, and so do the tiles 1 and 3. -/
def sample_fabric : FabricTile Int where
  ids_ := [⟨0⟩, ⟨1⟩, ⟨2⟩, ⟨3⟩]
  coords_ := fun t => (t.id.toNat, 0)
  unique_tile_ids_ := []
  device_rr_gsb_ := { signature := fun t => t.id % 2, equal := fun a b => decide (a = b) }

/-! ## A sample configuration tree -/

/-- A small configuration tree used to instantiate the theorems. Block 0 `top` owns the
blocks 1, 5, 2, 3 (in this order); block 1 `leafA` owns the bits 10 and 11; block 5 `leafC`
owns bit 14; block 2 `mid` owns block 4; block 4 `leaf` owns bit 13; block 3 `leafB` owns
bit 12. -/
def sample_manager : BitstreamManager where
  blocks := [⟨0⟩, ⟨1⟩, ⟨2⟩, ⟨3⟩, ⟨4⟩, ⟨5⟩]
  valid_block_id := fun b => decide (0 ≤ b.id ∧ b.id < 6)
  block_name := fun b =>
    if b.id = 0 then "top" else if b.id = 1 then "leafA" else if b.id = 2 then "mid"
    else if b.id = 3 then "leafB" else if b.id = 4 then "leaf"
    else if b.id = 5 then "leafC" else ""
  block_parent := fun b =>
    if b.id = 1 ∨ b.id = 2 ∨ b.id = 3 ∨ b.id = 5 then ⟨0⟩
    else if b.id = 4 then ⟨2⟩ else ConfigBlockId.INVALID
  block_children := fun b =>
    if b.id = 0 then [⟨1⟩, ⟨5⟩, ⟨2⟩, ⟨3⟩] else if b.id = 2 then [⟨4⟩] else []
  block_bits := fun b =>
    if b.id = 1 then [⟨10⟩, ⟨11⟩] else if b.id = 3 then [⟨12⟩]
    else if b.id = 4 then [⟨13⟩] else if b.id = 5 then [⟨14⟩] else []
  bit_parent_block := fun bit =>
    if bit.id = 10 ∨ bit.id = 11 then ⟨1⟩ else if bit.id = 12 then ⟨3⟩
    else if bit.id = 13 then ⟨4⟩ else if bit.id = 14 then ⟨5⟩
    else ConfigBlockId.INVALID

/-- A manager that breaks the structural invariants: block 0 owns bit 10 and also the child
block 1, which owns bit 11; bit 20 names block 0 as its owner without being listed in the
bits of block 0. -/
def corrupt_manager : BitstreamManager where
  blocks := [⟨0⟩, ⟨1⟩]
  valid_block_id := fun b => decide (0 ≤ b.id ∧ b.id < 2)
  block_name := fun b => if b.id = 0 then "top" else if b.id = 1 then "leaf" else ""
  block_parent := fun b => if b.id = 1 then ⟨0⟩ else ConfigBlockId.INVALID
  block_children := fun b => if b.id = 0 then [⟨1⟩] else []
  block_bits := fun b => if b.id = 0 then [⟨10⟩] else if b.id = 1 then [⟨11⟩] else []
  bit_parent_block := fun bit =>
    if bit.id = 10 ∨ bit.id = 20 then ⟨0⟩ else if bit.id = 11 then ⟨1⟩
    else ConfigBlockId.INVALID

/-! # Theorems -/

/-! ## Hierarchy walk -/

theorem ancestor_zero (bm : BitstreamManager) (b : ConfigBlockId) : ancestor bm 0 b = b := rfl

theorem ancestor_succ (bm : BitstreamManager) (k : Nat) (b : ConfigBlockId) :
    ancestor bm (k + 1) b = ancestor bm k (bm.block_parent b) := rfl

theorem ancestor_succ_outer (bm : BitstreamManager) (k : Nat) (b : ConfigBlockId) :
    ancestor bm (k + 1) b = bm.block_parent (ancestor bm k b) := by
  unfold ancestor
  exact Function.iterate_succ_apply' _ _ _

theorem ancestor_add (bm : BitstreamManager) (i j : Nat) (b : ConfigBlockId) :
    ancestor bm (i + j) b = ancestor bm i (ancestor bm j b) := by
  unfold ancestor
  exact Function.iterate_add_apply _ _ _ _

theorem block_hierarchy_loop_invalid (bm : BitstreamManager) (N : String) (fuel : Nat)
    (b : ConfigBlockId) (acc : List ConfigBlockId) (hb : bm.valid_block_id b = false) :
    block_hierarchy_loop bm N fuel b acc = some acc := by
  cases fuel <;> simp [block_hierarchy_loop, hb]

/-- The loop walks upward from `b` and stops after `k + 1` iterations when the `k`-th
ancestor is the first one that matches the stop name or has no valid parent. -/
theorem block_hierarchy_loop_walk (bm : BitstreamManager) (N : String) :
    ∀ (k fuel : Nat) (b : ConfigBlockId) (acc : List ConfigBlockId), k < fuel →
      (∀ j, j ≤ k → bm.valid_block_id (ancestor bm j b) = true) →
      (∀ j, j < k → ¬ (N ≠ "" ∧ bm.block_name (ancestor bm j b) = N)) →
      ((N ≠ "" ∧ bm.block_name (ancestor bm k b) = N) ∨
        bm.valid_block_id (ancestor bm (k + 1) b) = false) →
      block_hierarchy_loop bm N fuel b acc = some (acc ++ upward_chain bm k b) := by
  intro k
  induction k with
  | zero =>
    intro fuel b acc hf hv _ hstop
    obtain ⟨f, rfl⟩ : ∃ f, fuel = f + 1 := ⟨fuel - 1, by omega⟩
    have hb : bm.valid_block_id b = true := hv 0 (le_refl 0)
    rcases hstop with hm | hinv
    · rw [ancestor_zero] at hm
      simp [block_hierarchy_loop, hb, hm, upward_chain]
    · by_cases hm : N ≠ "" ∧ bm.block_name b = N
      · simp [block_hierarchy_loop, hb, hm, upward_chain]
      · have hpar : bm.valid_block_id (bm.block_parent b) = false := by
          simpa [ancestor_succ, ancestor_zero] using hinv
        simp only [block_hierarchy_loop, hb, if_true, hm, if_false, upward_chain]
        exact block_hierarchy_loop_invalid bm N f _ _ hpar
  | succ k ih =>
    intro fuel b acc hf hv hno hstop
    obtain ⟨f, rfl⟩ : ∃ f, fuel = f + 1 := ⟨fuel - 1, by omega⟩
    have hb : bm.valid_block_id b = true := hv 0 (Nat.zero_le _)
    have hm : ¬ (N ≠ "" ∧ bm.block_name b = N) := hno 0 (Nat.succ_pos k)
    simp only [block_hierarchy_loop, hb, if_true, hm, if_false, upward_chain]
    rw [ih f (bm.block_parent b) (acc ++ [b]) (by omega)
      (fun j hj => by rw [← ancestor_succ]; exact hv (j + 1) (by omega))
      (fun j hj => by rw [← ancestor_succ]; exact hno (j + 1) (by omega))
      (by rw [← ancestor_succ, ← ancestor_succ]; exact hstop)]
    simp

theorem upward_chain_length (bm : BitstreamManager) (k : Nat) (b : ConfigBlockId) :
    (upward_chain bm k b).length = k + 1 := by
  induction k generalizing b with
  | zero => rfl
  | succ k ih => simp [upward_chain, ih]

theorem upward_chain_getElem? (bm : BitstreamManager) (k : Nat) (b : ConfigBlockId)
    (i : Nat) (hi : i ≤ k) : (upward_chain bm k b)[i]? = some (ancestor bm i b) := by
  induction k generalizing b i with
  | zero =>
    obtain rfl : i = 0 := by omega
    rfl
  | succ k ih =>
    cases i with
    | zero => simp [upward_chain, ancestor_zero]
    | succ i =>
      simp only [upward_chain, List.getElem?_cons_succ]
      rw [ih (bm.block_parent b) i (by omega), ancestor_succ]

theorem upward_chain_head? (bm : BitstreamManager) (k : Nat) (b : ConfigBlockId) :
    (upward_chain bm k b).head? = some b := by
  cases k <;> rfl

theorem upward_chain_getLast? (bm : BitstreamManager) (k : Nat) (b : ConfigBlockId) :
    (upward_chain bm k b).getLast? = some (ancestor bm k b) := by
  rw [List.getLast?_eq_getElem?, upward_chain_length]
  exact upward_chain_getElem? bm k b k (le_refl k)

theorem upward_chain_chain (bm : BitstreamManager) (k : Nat) (b : ConfigBlockId) :
    List.Chain' (fun x y => bm.block_parent x = y) (upward_chain bm k b) := by
  induction k generalizing b with
  | zero => simp [upward_chain]
  | succ k ih =>
    simp only [upward_chain]
    rw [List.chain'_cons']
    refine ⟨?_, ih (bm.block_parent b)⟩
    intro y hy
    rw [upward_chain_head?] at hy
    simpa using hy

/-- Shape of the reversed upward walk: the root-first list `[parent^k b, ..., parent b, b]`. -/
theorem upward_chain_reverse_shape (bm : BitstreamManager) (k : Nat) (b : ConfigBlockId) :
    ((upward_chain bm k b).reverse).length = k + 1 ∧
    (∀ i, i ≤ k → ((upward_chain bm k b).reverse)[i]? = some (ancestor bm (k - i) b)) ∧
    ((upward_chain bm k b).reverse).head? = some (ancestor bm k b) ∧
    ((upward_chain bm k b).reverse).getLast? = some b ∧
    List.Chain' (fun x y => bm.block_parent y = x) ((upward_chain bm k b).reverse) := by
  refine ⟨by simp [upward_chain_length], ?_, ?_, ?_, ?_⟩
  · intro i hi
    rw [List.getElem?_reverse (by rw [upward_chain_length]; omega), upward_chain_length]
    rw [upward_chain_getElem? bm k b _ (by omega)]
    congr 2
  · rw [List.head?_reverse, upward_chain_getLast?]
  · rw [List.getLast?_reverse, upward_chain_head?]
  · rw [List.chain'_reverse]
    exact upward_chain_chain bm k b

/-- In a finite manager with acyclic parent links every valid block has a depth. -/
theorem exists_depth (bm : BitstreamManager) (hacy : ParentAcyclic bm)
    (hfin : BlocksComplete bm) (b : ConfigBlockId) (hb : bm.valid_block_id b = true) :
    ∃ d, HasDepth bm b d := by
  classical
  have hex : ∃ k, bm.valid_block_id (ancestor bm k b) = false := by
    by_contra hcon
    push_neg at hcon
    have hall : ∀ k, bm.valid_block_id (ancestor bm k b) = true := by
      intro k
      simpa using hcon k
    have hcard : (bm.blocks.toFinset).card < (Finset.range (bm.blocks.length + 1)).card := by
      rw [Finset.card_range]
      exact Nat.lt_succ_of_le (List.toFinset_card_le _)
    obtain ⟨i, _, j, _, hij, heq⟩ :=
      Finset.exists_ne_map_eq_of_card_lt_of_maps_to hcard
        (fun k _ => List.mem_toFinset.mpr (hfin _ (hall k)))
    rcases Nat.lt_or_gt_of_ne hij with h | h
    · refine hacy (ancestor bm i b) (j - i) (hall i) (by omega) ?_
      rw [← ancestor_add, Nat.sub_add_cancel (le_of_lt h)]
      exact heq.symm
    · refine hacy (ancestor bm j b) (i - j) (hall j) (by omega) ?_
      rw [← ancestor_add, Nat.sub_add_cancel (le_of_lt h)]
      exact heq
  have hmin := Nat.find_spec hex
  have hpos : Nat.find hex ≠ 0 := by
    intro h0
    rw [h0, ancestor_zero, hb] at hmin
    exact Bool.noConfusion hmin
  refine ⟨Nat.find hex - 1, ?_, ?_⟩
  · intro k hk
    have := Nat.find_min hex (show k < Nat.find hex by omega)
    simpa using this
  · rw [Nat.sub_add_cancel (Nat.one_le_iff_ne_zero.mpr hpos)]
    exact hmin

/-- Parent links that strictly decrease the identifier, or leave the valid range, are
acyclic. -/
theorem parentAcyclic_of_decreasing (bm : BitstreamManager)
    (hv : ∀ x, bm.valid_block_id x = true → 0 ≤ x.id)
    (hdec : ∀ x, (bm.block_parent x).id < x.id ∨ (bm.block_parent x).id < 0) :
    ParentAcyclic bm := by
  have key : ∀ k b, 0 ≤ b.id → (ancestor bm (k + 1) b).id < b.id := by
    intro k
    induction k with
    | zero =>
      intro b hb
      rw [ancestor_succ_outer, ancestor_zero]
      rcases hdec b with h | h <;> omega
    | succ k ih =>
      intro b hb
      rw [ancestor_succ_outer]
      have := ih b hb
      rcases hdec (ancestor bm (k + 1) b) with h | h <;> omega
  intro b k hb hk heq
  obtain ⟨n, rfl⟩ : ∃ n, k = n + 1 := ⟨k - 1, by omega⟩
  have := key n b (hv b hb)
  rw [heq] at this
  exact lt_irrefl _ this

theorem sample_manager_acyclic : ParentAcyclic sample_manager := by
  apply parentAcyclic_of_decreasing
  · intro x hx
    simp [sample_manager] at hx
    exact hx.1
  · intro x
    simp only [sample_manager, ConfigBlockId.INVALID]
    split_ifs <;> simp <;> omega

theorem sample_manager_complete : BlocksComplete sample_manager := by
  intro b hb
  simp [sample_manager] at hb
  obtain ⟨i⟩ := b
  simp only [sample_manager, List.mem_cons, ConfigBlockId.mk.injEq, List.mem_singleton,
    List.not_mem_nil, or_false]
  simp at hb
  omega

/-! ## Claims on `find_bitstream_manager_block_hierarchy` -/

/-- C1: for every valid block `b` of a finite manager with acyclic parent links,
`find_bitstream_manager_block_hierarchy(b, "")` returns (with any fuel above the depth `d`
of `b`) the list `[a_d, ..., a_1, b]` of the ancestors of `b`: its length is `d + 1`, its
`i`-th element is the `(d - i)`-th ancestor, its first element is the root (a block whose
parent is not valid), its last element is `b`, and every element is the parent of the
next one. -/
theorem find_hierarchy_full_chain (bm : BitstreamManager) (b : ConfigBlockId)
    (hacy : ParentAcyclic bm) (hfin : BlocksComplete bm)
    (hb : bm.valid_block_id b = true) :
    ∃ d chain, HasDepth bm b d ∧
      (∀ fuel, d < fuel →
        find_bitstream_manager_block_hierarchy fuel bm b "" = some chain) ∧
      chain.length = d + 1 ∧
      (∀ i, i ≤ d → chain[i]? = some (ancestor bm (d - i) b)) ∧
      chain.head? = some (ancestor bm d b) ∧
      bm.valid_block_id (bm.block_parent (ancestor bm d b)) = false ∧
      chain.getLast? = some b ∧
      List.Chain' (fun x y => bm.block_parent y = x) chain := by
  obtain ⟨d, hd⟩ := exists_depth bm hacy hfin b hb
  obtain ⟨hlen, hget, hhead, hlast, hchain⟩ := upward_chain_reverse_shape bm d b
  refine ⟨d, (upward_chain bm d b).reverse, hd, ?_, hlen, hget, hhead, ?_, hlast, hchain⟩
  · intro fuel hfuel
    unfold find_bitstream_manager_block_hierarchy
    rw [block_hierarchy_loop_walk bm "" d fuel b [] hfuel hd.1
      (fun j _ h => h.1 rfl) (Or.inr hd.2)]
    simp
  · rw [← ancestor_succ_outer]
    exact hd.2

/-- Instance of C1 on the sample tree: block 4 has the hierarchy `[0, 2, 4]`. -/
theorem find_hierarchy_full_chain_witness :
    ParentAcyclic sample_manager ∧ BlocksComplete sample_manager ∧
    sample_manager.valid_block_id ⟨4⟩ = true ∧
    find_bitstream_manager_block_hierarchy 3 sample_manager ⟨4⟩ "" =
      some [⟨0⟩, ⟨2⟩, ⟨4⟩] ∧
    ∃ d chain, HasDepth sample_manager ⟨4⟩ d ∧
      (∀ fuel, d < fuel →
        find_bitstream_manager_block_hierarchy fuel sample_manager ⟨4⟩ "" = some chain) ∧
      chain.length = d + 1 ∧
      (∀ i, i ≤ d → chain[i]? = some (ancestor sample_manager (d - i) ⟨4⟩)) ∧
      chain.head? = some (ancestor sample_manager d ⟨4⟩) ∧
      sample_manager.valid_block_id
        (sample_manager.block_parent (ancestor sample_manager d ⟨4⟩)) = false ∧
      chain.getLast? = some ⟨4⟩ ∧
      List.Chain' (fun x y => sample_manager.block_parent y = x) chain :=
  ⟨sample_manager_acyclic, sample_manager_complete, by decide, by decide,
    find_hierarchy_full_chain sample_manager ⟨4⟩ sample_manager_acyclic
      sample_manager_complete (by decide)⟩

/-- C2: for every block `b` and every non-empty name `N` carried by `b` or by one of its
ancestors (the `k`-th one, all blocks on the way up being valid),
`find_bitstream_manager_block_hierarchy(b, N)` returns a parent-linked chain that starts
at a block named `N` and ends at `b`, both included: its first element is the `m`-th
ancestor of `b` for some `m ≤ k` and has name `N`, its last element is `b`, and every
element is the parent of the next one. -/
theorem find_hierarchy_stop_at_name (bm : BitstreamManager) (b : ConfigBlockId)
    (N : String) (k : Nat) (hN : N ≠ "")
    (hvalid : ∀ j, j ≤ k → bm.valid_block_id (ancestor bm j b) = true)
    (hname : bm.block_name (ancestor bm k b) = N) :
    ∃ m chain, m ≤ k ∧
      (∀ fuel, m < fuel →
        find_bitstream_manager_block_hierarchy fuel bm b N = some chain) ∧
      chain.length = m + 1 ∧
      (∀ i, i ≤ m → chain[i]? = some (ancestor bm (m - i) b)) ∧
      chain.head? = some (ancestor bm m b) ∧
      bm.block_name (ancestor bm m b) = N ∧
      chain.getLast? = some b ∧
      List.Chain' (fun x y => bm.block_parent y = x) chain := by
  classical
  have hex : ∃ j, bm.block_name (ancestor bm j b) = N := ⟨k, hname⟩
  have hmk : Nat.find hex ≤ k := Nat.find_min' hex hname
  obtain ⟨hlen, hget, hhead, hlast, hchain⟩ :=
    upward_chain_reverse_shape bm (Nat.find hex) b
  refine ⟨Nat.find hex, (upward_chain bm (Nat.find hex) b).reverse, hmk, ?_, hlen, hget,
    hhead, Nat.find_spec hex, hlast, hchain⟩
  intro fuel hfuel
  unfold find_bitstream_manager_block_hierarchy
  rw [block_hierarchy_loop_walk bm N (Nat.find hex) fuel b [] hfuel
    (fun j hj => hvalid j (le_trans hj hmk))
    (fun j hj h => Nat.find_min hex hj h.2)
    (Or.inl ⟨hN, Nat.find_spec hex⟩)]
  simp

/-- Instance of C2 on the sample tree: from block 4 with the name of its parent. -/
theorem find_hierarchy_stop_at_name_witness :
    ("mid" ≠ "" ∧
      (∀ j, j ≤ 1 → sample_manager.valid_block_id (ancestor sample_manager j ⟨4⟩) = true) ∧
      sample_manager.block_name (ancestor sample_manager 1 ⟨4⟩) = "mid") ∧
    find_bitstream_manager_block_hierarchy 2 sample_manager ⟨4⟩ "mid" = some [⟨2⟩, ⟨4⟩] ∧
    ∃ m chain, m ≤ 1 ∧
      (∀ fuel, m < fuel →
        find_bitstream_manager_block_hierarchy fuel sample_manager ⟨4⟩ "mid" = some chain) ∧
      chain.length = m + 1 ∧
      (∀ i, i ≤ m → chain[i]? = some (ancestor sample_manager (m - i) ⟨4⟩)) ∧
      chain.head? = some (ancestor sample_manager m ⟨4⟩) ∧
      sample_manager.block_name (ancestor sample_manager m ⟨4⟩) = "mid" ∧
      chain.getLast? = some ⟨4⟩ ∧
      List.Chain' (fun x y => sample_manager.block_parent y = x) chain :=
  ⟨⟨by decide, by decide, by decide⟩, by decide,
    find_hierarchy_stop_at_name sample_manager ⟨4⟩ "mid" 1 (by decide) (by decide)
      (by decide)⟩

/-- C8: for every valid block `b` of a finite manager with acyclic parent links and every
stop name `N` (non-empty in particular) that is the name of neither `b` nor any ancestor
of `b`,
`find_bitstream_manager_block_hierarchy(b, N)` returns (with any fuel above the depth `d`
of `b`) a list, and it is the list returned for the empty stop name: the full chain of
length `d + 1` from the root to `b`. -/
theorem find_hierarchy_unmatched_name (bm : BitstreamManager) (b : ConfigBlockId)
    (N : String) (hacy : ParentAcyclic bm) (hfin : BlocksComplete bm)
    (hb : bm.valid_block_id b = true)
    (hno : ∀ k, (∀ j, j ≤ k → bm.valid_block_id (ancestor bm j b) = true) →
      bm.block_name (ancestor bm k b) ≠ N) :
    ∃ d chain, HasDepth bm b d ∧
      (∀ fuel, d < fuel →
        find_bitstream_manager_block_hierarchy fuel bm b N = some chain ∧
        find_bitstream_manager_block_hierarchy fuel bm b "" = some chain) ∧
      chain.length = d + 1 ∧
      chain.head? = some (ancestor bm d b) ∧
      bm.valid_block_id (bm.block_parent (ancestor bm d b)) = false ∧
      chain.getLast? = some b := by
  obtain ⟨d, hd⟩ := exists_depth bm hacy hfin b hb
  obtain ⟨hlen, _, hhead, hlast, _⟩ := upward_chain_reverse_shape bm d b
  refine ⟨d, (upward_chain bm d b).reverse, hd, ?_, hlen, hhead, ?_, hlast⟩
  · intro fuel hfuel
    unfold find_bitstream_manager_block_hierarchy
    rw [block_hierarchy_loop_walk bm N d fuel b [] hfuel hd.1
      (fun j hj h => hno j (fun i hi => hd.1 i (by omega)) h.2) (Or.inr hd.2),
      block_hierarchy_loop_walk bm "" d fuel b [] hfuel hd.1
      (fun j _ h => h.1 rfl) (Or.inr hd.2)]
    simp
  · rw [← ancestor_succ_outer]
    exact hd.2

/-- No block of the sample tree is named `nowhere`. -/
theorem sample_manager_names (b : ConfigBlockId) :
    sample_manager.block_name b ≠ "nowhere" := by
  simp only [sample_manager]
  split_ifs <;> decide

/-- Instance of C8 on the sample tree: a stop name that no block carries. -/
theorem find_hierarchy_unmatched_name_witness :
    (ParentAcyclic sample_manager ∧ BlocksComplete sample_manager ∧
      sample_manager.valid_block_id ⟨4⟩ = true ∧ "nowhere" ≠ "" ∧
      ∀ k, (∀ j, j ≤ k →
        sample_manager.valid_block_id (ancestor sample_manager j ⟨4⟩) = true) →
        sample_manager.block_name (ancestor sample_manager k ⟨4⟩) ≠ "nowhere") ∧
    find_bitstream_manager_block_hierarchy 3 sample_manager ⟨4⟩ "nowhere" =
      some [⟨0⟩, ⟨2⟩, ⟨4⟩] ∧
    ∃ d chain, HasDepth sample_manager ⟨4⟩ d ∧
      (∀ fuel, d < fuel →
        find_bitstream_manager_block_hierarchy fuel sample_manager ⟨4⟩ "nowhere" =
          some chain ∧
        find_bitstream_manager_block_hierarchy fuel sample_manager ⟨4⟩ "" = some chain) ∧
      chain.length = d + 1 ∧
      chain.head? = some (ancestor sample_manager d ⟨4⟩) ∧
      sample_manager.valid_block_id
        (sample_manager.block_parent (ancestor sample_manager d ⟨4⟩)) = false ∧
      chain.getLast? = some ⟨4⟩ :=
  ⟨⟨sample_manager_acyclic, sample_manager_complete, by decide, by decide,
      fun _ _ => sample_manager_names _⟩, by decide,
    find_hierarchy_unmatched_name sample_manager ⟨4⟩ "nowhere" sample_manager_acyclic
      sample_manager_complete (by decide) (fun _ _ => sample_manager_names _)⟩

/-- C9: for every stop name (empty or not) and every amount of fuel,
`find_bitstream_manager_block_hierarchy` called on a block identifier that is not valid
returns the empty list. -/
theorem find_hierarchy_invalid_block (fuel : Nat) (bm : BitstreamManager)
    (b : ConfigBlockId) (N : String) (hb : bm.valid_block_id b = false) :
    find_bitstream_manager_block_hierarchy fuel bm b N = some [] := by
  unfold find_bitstream_manager_block_hierarchy
  rw [block_hierarchy_loop_invalid bm N fuel b [] hb]
  rfl

/-- Instance of C9 on the sample tree: the sentinel identifier with a stop name. -/
theorem find_hierarchy_invalid_block_witness :
    sample_manager.valid_block_id ConfigBlockId.INVALID = false ∧
    find_bitstream_manager_block_hierarchy 0 sample_manager ConfigBlockId.INVALID "top" =
      some [] :=
  ⟨by decide, find_hierarchy_invalid_block 0 sample_manager ConfigBlockId.INVALID "top"
    (by decide)⟩

/-! ## Claim on `find_bitstream_manager_top_blocks` -/

theorem top_blocks_loop_eq (bm : BitstreamManager) (l acc : List ConfigBlockId) :
    top_blocks_loop bm l acc =
      acc ++ l.filter (fun b => decide (bm.block_parent b = ConfigBlockId.INVALID)) := by
  induction l generalizing acc with
  | nil => simp [top_blocks_loop]
  | cons x xs ih =>
    by_cases h : bm.block_parent x = ConfigBlockId.INVALID
    · have h2 : ¬ (ConfigBlockId.INVALID ≠ bm.block_parent x) := fun hne => hne h.symm
      rw [top_blocks_loop, if_neg h2, ih]
      simp [h]
    · have h2 : ConfigBlockId.INVALID ≠ bm.block_parent x := fun he => h he.symm
      rw [top_blocks_loop, if_pos h2, ih]
      simp [h]

/-- C6: for every bitstream manager, `find_bitstream_manager_top_blocks` returns exactly
the blocks of `blocks()` whose parent is the sentinel `INVALID()`: a block is in the result
if and only if it is in `blocks()` and has the sentinel as parent; the result is
`blocks()` with the other blocks removed, so it keeps the order of `blocks()`, and a block
with the sentinel as parent occurs in it exactly as often as in `blocks()` (no duplicate
is added), any other block not at all. -/
theorem find_top_blocks_spec (bm : BitstreamManager) :
    (∀ b, b ∈ find_bitstream_manager_top_blocks bm ↔
      b ∈ bm.blocks ∧ bm.block_parent b = ConfigBlockId.INVALID) ∧
    find_bitstream_manager_top_blocks bm =
      bm.blocks.filter (fun b => decide (bm.block_parent b = ConfigBlockId.INVALID)) ∧
    List.Sublist (find_bitstream_manager_top_blocks bm) bm.blocks ∧
    (∀ b, (find_bitstream_manager_top_blocks bm).count b =
      if bm.block_parent b = ConfigBlockId.INVALID then bm.blocks.count b else 0) := by
  have heq : find_bitstream_manager_top_blocks bm =
      bm.blocks.filter (fun b => decide (bm.block_parent b = ConfigBlockId.INVALID)) := by
    unfold find_bitstream_manager_top_blocks
    rw [top_blocks_loop_eq]
    rfl
  refine ⟨?_, heq, ?_, ?_⟩
  · intro b
    rw [heq]
    simp [List.mem_filter]
  · rw [heq]
    exact List.filter_sublist _
  · intro b
    rw [heq]
    by_cases hb : bm.block_parent b = ConfigBlockId.INVALID
    · rw [if_pos hb]
      exact List.count_filter (by simpa using hb)
    · rw [if_neg hb]
      exact List.count_eq_zero.mpr (fun hmem => hb (by simpa using (List.mem_filter.mp hmem).2))

/-! ## Claim on `find_bitstream_manager_config_bit_index_in_parent_block` -/

theorem bit_index_loop_shift (bit : ConfigBitId) (l : List ConfigBitId) (acc : Nat) :
    bit_index_loop bit l acc = acc + bit_index_loop bit l 0 := by
  induction l generalizing acc with
  | nil => simp [bit_index_loop]
  | cons x xs ih =>
    by_cases h : x = bit
    · simp [bit_index_loop, h]
    · simp only [bit_index_loop, h, if_false]
      rw [ih (acc + 1), ih (0 + 1)]
      omega

/-- The loop returns the position of the first occurrence of the bit. -/
theorem bit_index_loop_position (bit : ConfigBitId) (l : List ConfigBitId) (h : bit ∈ l) :
    bit_index_loop bit l 0 < l.length ∧
    l[bit_index_loop bit l 0]? = some bit ∧
    ∀ j, j < bit_index_loop bit l 0 → l[j]? ≠ some bit := by
  induction l with
  | nil => simp at h
  | cons x xs ih =>
    by_cases hx : x = bit
    · simp [bit_index_loop, hx]
    · have hmem : bit ∈ xs := by
        rcases List.mem_cons.mp h with h1 | h1
        · exact absurd h1.symm hx
        · exact h1
      obtain ⟨h1, h2, h3⟩ := ih hmem
      have hs : bit_index_loop bit (x :: xs) 0 = bit_index_loop bit xs 0 + 1 := by
        simp only [bit_index_loop, hx, if_false]
        rw [bit_index_loop_shift]
        omega
      rw [hs]
      refine ⟨by simpa using h1, by simpa using h2, ?_⟩
      intro j hj
      cases j with
      | zero => simpa using hx
      | succ j =>
        simp only [List.getElem?_cons_succ]
        exact h3 j (by omega)

/-- C5: for every bit that occurs in `bits(owner(bit))`,
`find_bitstream_manager_config_bit_index_in_parent_block(bit)` is the 0-based position `i`
of the bit in that list: `i < bits(owner(bit)).size()`, `bits(owner(bit))[i] = bit`, and no
position before `i` holds the bit. -/
theorem bit_index_in_parent_is_position (bm : BitstreamManager) (bit : ConfigBitId)
    (h : bit ∈ bm.block_bits (bm.bit_parent_block bit)) :
    find_bitstream_manager_config_bit_index_in_parent_block bm bit <
      (bm.block_bits (bm.bit_parent_block bit)).length ∧
    (bm.block_bits (bm.bit_parent_block bit))[
      find_bitstream_manager_config_bit_index_in_parent_block bm bit]? = some bit ∧
    ∀ j, j < find_bitstream_manager_config_bit_index_in_parent_block bm bit →
      (bm.block_bits (bm.bit_parent_block bit))[j]? ≠ some bit :=
  bit_index_loop_position bit _ h

/-- Instance of C5 on the sample tree: bit 11 is at position 1 of block 1. -/
theorem bit_index_in_parent_is_position_witness :
    (⟨11⟩ : ConfigBitId) ∈ sample_manager.block_bits (sample_manager.bit_parent_block ⟨11⟩) ∧
    find_bitstream_manager_config_bit_index_in_parent_block sample_manager ⟨11⟩ = 1 ∧
    (find_bitstream_manager_config_bit_index_in_parent_block sample_manager ⟨11⟩ <
      (sample_manager.block_bits (sample_manager.bit_parent_block ⟨11⟩)).length ∧
    (sample_manager.block_bits (sample_manager.bit_parent_block ⟨11⟩))[
      find_bitstream_manager_config_bit_index_in_parent_block sample_manager ⟨11⟩]? =
        some ⟨11⟩ ∧
    ∀ j, j < find_bitstream_manager_config_bit_index_in_parent_block sample_manager ⟨11⟩ →
      (sample_manager.block_bits (sample_manager.bit_parent_block ⟨11⟩))[j]? ≠ some ⟨11⟩) :=
  ⟨by decide, by decide,
    bit_index_in_parent_is_position sample_manager ⟨11⟩ (by decide)⟩

/-! ## Claim on `rec_find_bitstream_manager_block_sum_of_bits` -/

/-- A block without children counts its own bits, with any positive fuel. -/
theorem sum_of_bits_leaf (bm : BitstreamManager) (fuel : Nat) (b : ConfigBlockId)
    (hleaf : bm.block_children b = []) :
    rec_find_bitstream_manager_block_sum_of_bits bm (fuel + 1) b =
      Res.val (bm.block_bits b).length := by
  by_cases hbits : 0 < (bm.block_bits b).length
  · simp [rec_find_bitstream_manager_block_sum_of_bits, VTR_ASSERT_SAFE, hbits, hleaf]
  · have h0 : (bm.block_bits b).length = 0 := by omega
    simp [rec_find_bitstream_manager_block_sum_of_bits, hleaf, h0, sum_of_bits_loop]

/-- A block with children and without bits sums over its children. -/
theorem sum_of_bits_node (bm : BitstreamManager) (fuel : Nat) (b : ConfigBlockId)
    (hbits : bm.block_bits b = []) :
    rec_find_bitstream_manager_block_sum_of_bits bm (fuel + 1) b =
      sum_of_bits_loop (fun c => rec_find_bitstream_manager_block_sum_of_bits bm fuel c)
        (bm.block_children b) 0 := by
  simp [rec_find_bitstream_manager_block_sum_of_bits, hbits]

/-- Over a finite acyclic forest without a block owning both bits and children, the
summation loop adds the sizes of the bit lists of all leaves, given enough fuel. -/
theorem sum_of_bits_loop_forest (bm : BitstreamManager) (hxor : ChildrenXorBits bm)
    (bs leaves : List ConfigBlockId) (h : ForestLeaves bm bs leaves) :
    ∃ n, ∀ fuel, n ≤ fuel → ∀ acc,
      sum_of_bits_loop (fun c => rec_find_bitstream_manager_block_sum_of_bits bm fuel c)
        bs acc = Res.val (acc + (leaves.map (fun l => (bm.block_bits l).length)).sum) := by
  induction h with
  | nil => exact ⟨0, fun fuel _ acc => by simp [sum_of_bits_loop]⟩
  | leaf b rest leaves hleaf _ ih =>
    obtain ⟨n, hn⟩ := ih
    refine ⟨n + 1, fun fuel hfuel acc => ?_⟩
    obtain ⟨f, rfl⟩ : ∃ f, fuel = f + 1 := ⟨fuel - 1, by omega⟩
    simp only [sum_of_bits_loop, sum_of_bits_leaf bm f b hleaf]
    rw [hn (f + 1) (by omega)]
    simp [Nat.add_assoc]
  | node b rest below leaves hchildren _ _ ihc ihr =>
    obtain ⟨nc, hnc⟩ := ihc
    obtain ⟨nr, hnr⟩ := ihr
    refine ⟨max (nc + 1) nr, fun fuel hfuel acc => ?_⟩
    obtain ⟨f, rfl⟩ : ∃ f, fuel = f + 1 := ⟨fuel - 1, by omega⟩
    have hbits : bm.block_bits b = [] := by
      rcases hxor b with h1 | h1
      · exact h1
      · exact absurd h1 hchildren
    simp only [sum_of_bits_loop, sum_of_bits_node bm f b hbits]
    rw [hnc f (by omega) 0]
    simp only []
    rw [hnr (f + 1) (by omega)]
    simp [Nat.add_assoc]

/-- C3: for every finite, acyclic config tree below `root` in which no block owns both
child blocks and bits, `rec_find_bitstream_manager_block_sum_of_bits(root)` returns (with
enough fuel) the sum of `bits(leaf).size()` over all leaf blocks of the subtree of `root`;
`root` itself is the only leaf when it has no children. The hypothesis
`ForestLeaves bm [root] leaves` says that the subtree is finite and acyclic and that
`leaves` lists its leaves. -/
theorem sum_of_bits_eq_leaf_sum (bm : BitstreamManager) (root : ConfigBlockId)
    (leaves : List ConfigBlockId) (hxor : ChildrenXorBits bm)
    (htree : ForestLeaves bm [root] leaves) :
    ∃ n, ∀ fuel, n ≤ fuel →
      rec_find_bitstream_manager_block_sum_of_bits bm fuel root =
        Res.val ((leaves.map (fun l => (bm.block_bits l).length)).sum) := by
  obtain ⟨n, hn⟩ := sum_of_bits_loop_forest bm hxor [root] leaves htree
  refine ⟨n, fun fuel hfuel => ?_⟩
  have h := hn fuel hfuel 0
  simp only [sum_of_bits_loop] at h
  cases hr : rec_find_bitstream_manager_block_sum_of_bits bm fuel root with
  | val v =>
    rw [hr] at h
    simp only [Res.val.injEq, Nat.zero_add] at h
    rw [h]
  | assert_fail => rw [hr] at h; exact Res.noConfusion h
  | diverge => rw [hr] at h; exact Res.noConfusion h

/-- A forest whose two parts have leaf lists has the concatenated leaf list. -/
theorem forestLeaves_append (bm : BitstreamManager) (as bs la lb : List ConfigBlockId)
    (ha : ForestLeaves bm as la) (hb : ForestLeaves bm bs lb) :
    ForestLeaves bm (as ++ bs) (la ++ lb) := by
  induction ha with
  | nil => exact hb
  | leaf b rest leaves hleaf _ ih => exact ForestLeaves.leaf b _ _ hleaf ih
  | node b rest below leaves hch hbelow _ _ ih =>
    rw [List.cons_append, List.append_assoc]
    exact ForestLeaves.node b _ below _ hch hbelow ih

/-- Every block from which the child relation is well-founded is the root of a finite
acyclic subtree with a list of leaves. -/
theorem forestLeaves_of_acc (bm : BitstreamManager) (root : ConfigBlockId)
    (hacc : Acc (fun c p => c ∈ bm.block_children p) root) :
    ∃ leaves, ForestLeaves bm [root] leaves := by
  induction hacc with
  | intro b _ ih =>
    have hlist : ∀ cs : List ConfigBlockId, (∀ c ∈ cs, c ∈ bm.block_children b) →
        ∃ ls, ForestLeaves bm cs ls := by
      intro cs
      induction cs with
      | nil => exact fun _ => ⟨[], ForestLeaves.nil⟩
      | cons c cs ihcs =>
        intro hsub
        obtain ⟨l1, h1⟩ := ih c (hsub c (List.mem_cons_self _ _))
        obtain ⟨l2, h2⟩ := ihcs (fun x hx => hsub x (List.mem_cons_of_mem _ hx))
        exact ⟨l1 ++ l2, forestLeaves_append bm [c] cs l1 l2 h1 h2⟩
    by_cases hch : bm.block_children b = []
    · exact ⟨[b], ForestLeaves.leaf b [] [] hch ForestLeaves.nil⟩
    · obtain ⟨ls, hls⟩ := hlist (bm.block_children b) (fun c hc => hc)
      exact ⟨ls ++ [], ForestLeaves.node b [] ls [] hch hls ForestLeaves.nil⟩

theorem sample_manager_xor : ChildrenXorBits sample_manager := by
  intro b
  simp only [sample_manager]
  split_ifs <;> simp_all

theorem sample_manager_leaves :
    ForestLeaves sample_manager [⟨0⟩] [⟨1⟩, ⟨5⟩, ⟨4⟩, ⟨3⟩] :=
  ForestLeaves.node ⟨0⟩ [] [⟨1⟩, ⟨5⟩, ⟨4⟩, ⟨3⟩] [] (by decide)
    (ForestLeaves.leaf ⟨1⟩ _ _ (by decide)
      (ForestLeaves.leaf ⟨5⟩ _ _ (by decide)
        (ForestLeaves.node ⟨2⟩ [⟨3⟩] [⟨4⟩] [⟨3⟩] (by decide)
          (ForestLeaves.leaf ⟨4⟩ [] [] (by decide) ForestLeaves.nil)
          (ForestLeaves.leaf ⟨3⟩ [] [] (by decide) ForestLeaves.nil))))
    ForestLeaves.nil

/-- Instance of C3 on the sample tree: the leaves 1, 5, 4 and 3 below block 0 own 2 + 1 + 1 + 1 bits. -/
theorem sum_of_bits_eq_leaf_sum_witness :
    (ChildrenXorBits sample_manager ∧ ForestLeaves sample_manager [⟨0⟩] [⟨1⟩, ⟨5⟩, ⟨4⟩, ⟨3⟩]) ∧
    rec_find_bitstream_manager_block_sum_of_bits sample_manager 3 ⟨0⟩ = Res.val 5 ∧
    ∃ n, ∀ fuel, n ≤ fuel →
      rec_find_bitstream_manager_block_sum_of_bits sample_manager fuel ⟨0⟩ =
        Res.val (([⟨1⟩, ⟨5⟩, ⟨4⟩, ⟨3⟩].map
          (fun l => (sample_manager.block_bits l).length)).sum) :=
  ⟨⟨sample_manager_xor, sample_manager_leaves⟩, by decide,
    sum_of_bits_eq_leaf_sum sample_manager ⟨0⟩ [⟨1⟩, ⟨5⟩, ⟨4⟩, ⟨3⟩] sample_manager_xor
      sample_manager_leaves⟩

/-! ## Claim on `find_bitstream_manager_config_bit_index_in_grandparent_block` -/

/-- When the parent block occurs among the candidates, the loop adds the sizes of the bit
lists of the candidates before it and then the index of the bit in its parent block. -/
theorem grandparent_index_loop_eq (bm : BitstreamManager) (bit : ConfigBitId)
    (p : ConfigBlockId) (l : List ConfigBlockId) (acc : Nat) (hp : p ∈ l) :
    grandparent_index_loop bm bit p l acc =
      acc + ((preceding_siblings p l).map (fun s => (bm.block_bits s).length)).sum +
        find_bitstream_manager_config_bit_index_in_parent_block bm bit := by
  induction l generalizing acc with
  | nil => simp at hp
  | cons x xs ih =>
    by_cases hx : x = p
    · simp [grandparent_index_loop, preceding_siblings, hx]
    · have hmem : p ∈ xs := by
        rcases List.mem_cons.mp hp with h1 | h1
        · exact absurd h1.symm hx
        · exact h1
      have htw : preceding_siblings p (x :: xs) = x :: preceding_siblings p xs := by
        simp [preceding_siblings, List.takeWhile_cons, hx]
      rw [grandparent_index_loop, if_pos hx, ih _ hmem, htw]
      simp [Nat.add_assoc]

/-- Over blocks without children the specification-side sum adds the sizes of the bit
lists. -/
theorem sum_of_bits_loop_leaves (bm : BitstreamManager) (fuel : Nat)
    (l : List ConfigBlockId) (acc : Nat) (hleaf : ∀ s ∈ l, bm.block_children s = []) :
    sum_of_bits_loop
      (fun s => rec_find_bitstream_manager_block_sum_of_bits bm (fuel + 1) s) l acc =
      Res.val (acc + (l.map (fun s => (bm.block_bits s).length)).sum) := by
  induction l generalizing acc with
  | nil => simp [sum_of_bits_loop]
  | cons x xs ih =>
    simp only [sum_of_bits_loop, sum_of_bits_leaf bm fuel x (hleaf x (List.mem_cons_self _ _))]
    rw [ih _ (fun s hs => hleaf s (List.mem_cons_of_mem _ hs))]
    simp [Nat.add_assoc]

/-- C4 as stated fails on the sample tree. Bit 12 is owned by block 3, whose parent
block 0 is valid and lists the children 1, 5, 2, 3; no block owns both bits and children.
The preceding siblings 1, 5, 2 have subtrees with 2, 1 and 1 bits (block 2 through its
child 4), so the stated offset is 2 + 1 + 1 + 0 = 4, but for block 2 the code adds
`block_bits(2).size() = 0` and returns 3. -/
theorem grandparent_index_not_subtree_count :
    (ChildrenXorBits sample_manager ∧
      sample_manager.valid_block_id
        (sample_manager.block_parent (sample_manager.bit_parent_block ⟨12⟩)) = true ∧
      sample_manager.bit_parent_block ⟨12⟩ ∈ sample_manager.block_children
        (sample_manager.block_parent (sample_manager.bit_parent_block ⟨12⟩)) ∧
      (⟨12⟩ : ConfigBitId) ∈
        sample_manager.block_bits (sample_manager.bit_parent_block ⟨12⟩)) ∧
    preceding_siblings (sample_manager.bit_parent_block ⟨12⟩)
      (sample_manager.block_children
        (sample_manager.block_parent (sample_manager.bit_parent_block ⟨12⟩))) = [⟨1⟩, ⟨5⟩, ⟨2⟩] ∧
    rec_find_bitstream_manager_block_sum_of_bits sample_manager 2 ⟨2⟩ = Res.val 1 ∧
    (sample_manager.block_bits ⟨2⟩).length = 0 ∧
    find_bitstream_manager_config_bit_index_in_parent_block sample_manager ⟨12⟩ = 0 ∧
    bit_index_in_grandparent_spec 2 sample_manager ⟨12⟩ = Res.val 4 ∧
    find_bitstream_manager_config_bit_index_in_grandparent_block sample_manager ⟨12⟩ = 3 ∧
    Res.val (find_bitstream_manager_config_bit_index_in_grandparent_block
      sample_manager ⟨12⟩) ≠ bit_index_in_grandparent_spec 2 sample_manager ⟨12⟩ :=
  ⟨⟨sample_manager_xor, by decide, by decide, by decide⟩, by decide, by decide, by decide,
    by decide, by decide, by decide, by decide⟩

/-- C4 (amended): for every bit whose owner `P` occurs in `children(G)` of its parent `G`,
`find_bitstream_manager_config_bit_index_in_grandparent_block(bit)` equals the sum, over
the siblings `S` that precede `P` in `children(G)`, of `bits(S).size()` (the bits owned
directly by `S`), plus `find_bitstream_manager_config_bit_index_in_parent_block(bit)`.
When no block owns both children and bits and every preceding sibling is a leaf (owns no
children), this is the sum of the siblings' total subtree bit counts
`rec_find_bitstream_manager_block_sum_of_bits(S)` plus the index in the parent block. -/
theorem grandparent_index_direct_bits (bm : BitstreamManager) (bit : ConfigBitId)
    (hP : bm.bit_parent_block bit ∈
      bm.block_children (bm.block_parent (bm.bit_parent_block bit))) :
    find_bitstream_manager_config_bit_index_in_grandparent_block bm bit =
      ((preceding_siblings (bm.bit_parent_block bit)
        (bm.block_children (bm.block_parent (bm.bit_parent_block bit)))).map
          (fun s => (bm.block_bits s).length)).sum +
        find_bitstream_manager_config_bit_index_in_parent_block bm bit ∧
    (ChildrenXorBits bm →
      (∀ s ∈ preceding_siblings (bm.bit_parent_block bit)
        (bm.block_children (bm.block_parent (bm.bit_parent_block bit))),
          bm.block_children s = []) →
      ∀ fuel, bit_index_in_grandparent_spec (fuel + 1) bm bit =
        Res.val (find_bitstream_manager_config_bit_index_in_grandparent_block bm bit)) := by
  have h1 : find_bitstream_manager_config_bit_index_in_grandparent_block bm bit =
      ((preceding_siblings (bm.bit_parent_block bit)
        (bm.block_children (bm.block_parent (bm.bit_parent_block bit)))).map
          (fun s => (bm.block_bits s).length)).sum +
        find_bitstream_manager_config_bit_index_in_parent_block bm bit := by
    unfold find_bitstream_manager_config_bit_index_in_grandparent_block
    simp only []
    rw [grandparent_index_loop_eq bm bit _ _ 0 hP]
    omega
  refine ⟨h1, fun _ hleaf fuel => ?_⟩
  unfold bit_index_in_grandparent_spec
  rw [sum_of_bits_loop_leaves bm fuel _ _ hleaf, h1, Nat.add_comm]

/-- Instance of amended C4 on the sample tree: bit 14 of block 5, which is preceded in
block 0 by the leaf block 1 with two bits, has offset 2 + 0. -/
theorem grandparent_index_direct_bits_witness :
    (sample_manager.bit_parent_block ⟨14⟩ ∈ sample_manager.block_children
        (sample_manager.block_parent (sample_manager.bit_parent_block ⟨14⟩)) ∧
      ChildrenXorBits sample_manager ∧
      ∀ s ∈ preceding_siblings (sample_manager.bit_parent_block ⟨14⟩)
        (sample_manager.block_children
          (sample_manager.block_parent (sample_manager.bit_parent_block ⟨14⟩))),
          sample_manager.block_children s = []) ∧
    find_bitstream_manager_config_bit_index_in_grandparent_block sample_manager ⟨14⟩ = 2 ∧
    find_bitstream_manager_config_bit_index_in_grandparent_block sample_manager ⟨14⟩ =
      ((preceding_siblings (sample_manager.bit_parent_block ⟨14⟩)
        (sample_manager.block_children
          (sample_manager.block_parent (sample_manager.bit_parent_block ⟨14⟩)))).map
          (fun s => (sample_manager.block_bits s).length)).sum +
        find_bitstream_manager_config_bit_index_in_parent_block sample_manager ⟨14⟩ ∧
    ∀ fuel, bit_index_in_grandparent_spec (fuel + 1) sample_manager ⟨14⟩ =
      Res.val (find_bitstream_manager_config_bit_index_in_grandparent_block
        sample_manager ⟨14⟩) :=
  ⟨⟨by decide, sample_manager_xor, by decide⟩, by decide,
    (grandparent_index_direct_bits sample_manager ⟨14⟩ (by decide)).1,
    (grandparent_index_direct_bits sample_manager ⟨14⟩ (by decide)).2
      sample_manager_xor (by decide)⟩

/-! ## Claim on `reverse_split_bit_path_to_blocks` -/

theorem find_first_of_none (c : Char) (s : List Char) (h : c ∉ s) :
    find_first_of c s = none := by
  induction s with
  | nil => rfl
  | cons x xs ih =>
    have hx : x ≠ c := fun e => h (e ▸ List.mem_cons_self _ _)
    have hxs : c ∉ xs := fun e => h (List.mem_cons_of_mem _ e)
    simp [find_first_of, hx, ih hxs]

theorem find_first_of_append (c : Char) (s rest : List Char) (h : c ∉ s) :
    find_first_of c (s ++ c :: rest) = some s.length := by
  induction s with
  | nil => simp [find_first_of]
  | cons x xs ih =>
    have hx : x ≠ c := fun e => h (e ▸ List.mem_cons_self _ _)
    have hxs : c ∉ xs := fun e => h (List.mem_cons_of_mem _ e)
    simp [find_first_of, hx, ih hxs]

theorem reverse_split_loop_some (path : List Char) (blocks : List (List Char)) (index : Nat)
    (h : find_first_of '.' path = some index) :
    reverse_split_loop path blocks =
      reverse_split_loop (path.drop (index + 1)) (path.take index :: blocks) := by
  rw [reverse_split_loop]
  split
  · rename_i j hj
    rw [h] at hj
    cases hj
    rfl
  · rename_i hj
    rw [h] at hj
    cases hj

theorem reverse_split_loop_none (path : List Char) (blocks : List (List Char))
    (h : find_first_of '.' path = none) :
    reverse_split_loop path blocks = if path.length ≠ 0 then path :: blocks else blocks := by
  rw [reverse_split_loop]
  split
  · rename_i j hj
    rw [h] at hj
    cases hj
  · rfl

/-- On dot-free non-empty segments joined with dots, the loop puts the segments in front
of the vector, last segment first. -/
theorem reverse_split_loop_joined (segs : List (List Char))
    (hseg : ∀ s ∈ segs, s ≠ [] ∧ '.' ∉ s) (blocks : List (List Char)) :
    reverse_split_loop (join_with_dots segs) blocks = segs.reverse ++ blocks := by
  induction segs generalizing blocks with
  | nil => rw [join_with_dots, reverse_split_loop_none [] blocks rfl]; simp
  | cons s t ih =>
    obtain ⟨hne, hdot⟩ := hseg s (List.mem_cons_self _ _)
    cases t with
    | nil =>
      rw [join_with_dots, reverse_split_loop_none _ _ (find_first_of_none _ _ hdot)]
      have : s.length ≠ 0 := fun h0 => hne (List.length_eq_zero.mp h0)
      simp [this]
    | cons t rest =>
      rw [join_with_dots, reverse_split_loop_some _ _ _ (find_first_of_append _ _ _ hdot)]
      have hdrop : (s ++ '.' :: join_with_dots (t :: rest)).drop (s.length + 1) =
          join_with_dots (t :: rest) := by
        rw [List.drop_append_eq_append_drop]
        simp
      have htake : (s ++ '.' :: join_with_dots (t :: rest)).take s.length = s := by
        simp
      rw [hdrop, htake, ih (fun x hx => hseg x (List.mem_cons_of_mem _ hx))]
      simp

theorem intercalate_go_data (sep : String) (rest : List String) (acc : String) :
    (String.intercalate.go acc sep rest).data =
      acc.data ++ (rest.map (fun a => sep.data ++ a.data)).flatten := by
  induction rest generalizing acc with
  | nil => simp [String.intercalate.go]
  | cons a rest ih =>
    simp [String.intercalate.go, ih, String.data_append]

theorem join_with_dots_cons (s : List Char) (rest : List (List Char)) :
    join_with_dots (s :: rest) = s ++ (rest.map (fun a => '.' :: a)).flatten := by
  induction rest generalizing s with
  | nil => simp [join_with_dots]
  | cons t rest ih => simp [join_with_dots, ih]

/-- The characters of `String.intercalate "." segs` are the segments joined with dots. -/
theorem intercalate_dot_data (segs : List String) :
    (String.intercalate "." segs).data = join_with_dots (segs.map String.data) := by
  cases segs with
  | nil => rfl
  | cons s rest =>
    rw [String.intercalate, intercalate_go_data, List.map_cons, join_with_dots_cons]
    simp [List.map_map, Function.comp_def]

/-- C7: for every list `segs` of segments that are each non-empty and contain no `'.'`,
`reverse_split_bit_path_to_blocks` applied to the segments joined with `"."` returns
`reverse(segs)`. -/
theorem reverse_split_of_joined (segs : List String)
    (hseg : ∀ s ∈ segs, s ≠ "" ∧ '.' ∉ s.data) :
    reverse_split_bit_path_to_blocks (String.intercalate "." segs) = segs.reverse := by
  unfold reverse_split_bit_path_to_blocks
  rw [intercalate_dot_data, reverse_split_loop_joined]
  · simp [List.map_reverse, List.map_map, Function.comp_def]
  · intro s hs
    obtain ⟨x, hx, rfl⟩ := List.mem_map.mp hs
    obtain ⟨h1, h2⟩ := hseg x hx
    refine ⟨fun h0 => h1 ?_, h2⟩
    cases x
    simp_all

/-- Instances of C7: `"top.mid.leaf"` gives `["leaf", "mid", "top"]`, `"solo"` gives
`["solo"]`, and the empty path gives the empty list. -/
theorem reverse_split_of_joined_witness :
    (∀ s ∈ ["top", "mid", "leaf"], s ≠ "" ∧ '.' ∉ s.data) ∧
    reverse_split_bit_path_to_blocks "top.mid.leaf" = ["leaf", "mid", "top"] ∧
    reverse_split_bit_path_to_blocks "solo" = ["solo"] ∧
    reverse_split_bit_path_to_blocks "" = [] :=
  ⟨by decide,
    reverse_split_of_joined ["top", "mid", "leaf"] (by decide),
    reverse_split_of_joined ["solo"] (by decide),
    reverse_split_of_joined [] (by decide)⟩

/-! ## Claim on `ModuleNameMap::set_tag_to_name_pair` -/

/-- C10 (defect of the code): starting from an empty map, the calls
`set_tag_to_name_pair("tagA", "x")` and `set_tag_to_name_pair("tagB", "x")` both pass the
conflict check (neither returns the fatal-error code), because the entry of `name2tags_`
written by the first call is erased again before the call ends. Afterwards the two
different tags are bound to the same customized name `"x"`, so the mapping is not
one-on-one. -/
theorem name_map_two_tags_one_name :
    (ModuleNameMap.set_tag_to_name_pair ModuleNameMap.empty "tagA" "x").2 ≠
      some CMD_EXEC_FATAL_ERROR ∧
    (ModuleNameMap.set_tag_to_name_pair
      (ModuleNameMap.set_tag_to_name_pair ModuleNameMap.empty "tagA" "x").1 "tagB" "x").2 ≠
      some CMD_EXEC_FATAL_ERROR ∧
    (ModuleNameMap.set_tag_to_name_pair ModuleNameMap.empty "tagA" "x").1.name2tags_ = [] ∧
    ModuleNameMap.bound
      (ModuleNameMap.set_all ModuleNameMap.empty [("tagA", "x"), ("tagB", "x")]) "tagA" ∧
    ModuleNameMap.bound
      (ModuleNameMap.set_all ModuleNameMap.empty [("tagA", "x"), ("tagB", "x")]) "tagB" ∧
    "tagA" ≠ "tagB" ∧
    ModuleNameMap.name
      (ModuleNameMap.set_all ModuleNameMap.empty [("tagA", "x"), ("tagB", "x")]) "tagA" =
      "x" ∧
    ModuleNameMap.name
      (ModuleNameMap.set_all ModuleNameMap.empty [("tagA", "x"), ("tagB", "x")]) "tagB" =
      "x" := by
  unfold ModuleNameMap.bound
  decide

/-! ## Further claims on `ModuleNameMap` -/

theorem strMap_find_assign (m : StrMap) (k v : String) :
    StrMap.find (StrMap.assign m k v) k = some v := by
  simp [StrMap.find, StrMap.assign]

/-- A call that does not return the fatal-error code has bound the tag to the name. -/
theorem set_tag_to_name_pair_state (m : ModuleNameMap) (tag name : String)
    (h : (ModuleNameMap.set_tag_to_name_pair m tag name).2 ≠ some CMD_EXEC_FATAL_ERROR) :
    (ModuleNameMap.set_tag_to_name_pair m tag name).1.tag2names_ =
      StrMap.assign m.tag2names_ tag name := by
  unfold ModuleNameMap.set_tag_to_name_pair at h ⊢
  by_cases hc : StrMap.find m.name2tags_ name ≠ none ∧
      StrMap.find m.name2tags_ name ≠ some tag
  · rw [if_pos hc] at h
    exact absurd rfl h
  · rw [if_neg hc]

/-- C11 (defect of the code): in the map reached from the empty map by
`set_tag_to_name_pair("tagA", "x")`, the name `"x"` is the customized name of `"tagA"`;
the call `set_tag_to_name_pair("tagB", "x")` for the different tag `"tagB"` finds no entry
for `"x"` in `name2tags_`, does not return the fatal-error code, and changes the mapping:
`name("tagB")` is the empty string before the call and `"x"` after it. -/
theorem name_map_conflict_not_rejected :
    ModuleNameMap.name
      (ModuleNameMap.set_tag_to_name_pair ModuleNameMap.empty "tagA" "x").1 "tagA" = "x" ∧
    "tagB" ≠ "tagA" ∧
    StrMap.find
      (ModuleNameMap.set_tag_to_name_pair ModuleNameMap.empty "tagA" "x").1.name2tags_ "x" =
      none ∧
    (ModuleNameMap.set_tag_to_name_pair
      (ModuleNameMap.set_tag_to_name_pair ModuleNameMap.empty "tagA" "x").1 "tagB" "x").2 ≠
      some CMD_EXEC_FATAL_ERROR ∧
    ModuleNameMap.name
      (ModuleNameMap.set_tag_to_name_pair ModuleNameMap.empty "tagA" "x").1 "tagB" = "" ∧
    ModuleNameMap.name
      (ModuleNameMap.set_tag_to_name_pair
        (ModuleNameMap.set_tag_to_name_pair ModuleNameMap.empty "tagA" "x").1
        "tagB" "x").1 "tagB" = "x" := by
  decide

/-- C12: for every map state, tag and name, if `set_tag_to_name_pair(tag, name)` does not
take the error branch (it does not return the fatal-error code), then immediately
afterwards `name(tag)` returns `name`, whatever `tag` was bound to before. -/
theorem name_after_set_tag_to_name_pair (m : ModuleNameMap) (tag name : String)
    (h : (ModuleNameMap.set_tag_to_name_pair m tag name).2 ≠ some CMD_EXEC_FATAL_ERROR) :
    ModuleNameMap.name (ModuleNameMap.set_tag_to_name_pair m tag name).1 tag = name := by
  unfold ModuleNameMap.name
  rw [set_tag_to_name_pair_state m tag name h, strMap_find_assign]

/-- Instance of C12: rebinding `"tagA"` from `"x"` to `"y"` overwrites the earlier name. -/
theorem name_after_set_tag_to_name_pair_witness :
    ModuleNameMap.name
      (ModuleNameMap.set_tag_to_name_pair ModuleNameMap.empty "tagA" "x").1 "tagA" = "x" ∧
    (ModuleNameMap.set_tag_to_name_pair
      (ModuleNameMap.set_tag_to_name_pair ModuleNameMap.empty "tagA" "x").1 "tagA" "y").2 ≠
      some CMD_EXEC_FATAL_ERROR ∧
    ModuleNameMap.name
      (ModuleNameMap.set_tag_to_name_pair
        (ModuleNameMap.set_tag_to_name_pair ModuleNameMap.empty "tagA" "x").1
        "tagA" "y").1 "tagA" = "y" :=
  ⟨by decide, by decide,
    name_after_set_tag_to_name_pair
      (ModuleNameMap.set_tag_to_name_pair ModuleNameMap.empty "tagA" "x").1 "tagA" "y"
      (by decide)⟩

/-- C13 (defect of the code): no call of `set_tag_to_name_pair` returns 0. A call that
takes the conflict branch returns the failure code 1; every other call binds its tag to
its name and then reaches the end of the function body without a `return` statement, so
no value is returned. On the empty map, `set_tag_to_name_pair("tagA", "x")` binds the tag
and returns no value. -/
theorem set_tag_to_name_pair_never_returns_zero :
    (∀ (m : ModuleNameMap) (tag name : String),
      (ModuleNameMap.set_tag_to_name_pair m tag name).2 ≠ some 0 ∧
      ((ModuleNameMap.set_tag_to_name_pair m tag name).2 = some CMD_EXEC_FATAL_ERROR ∨
        ((ModuleNameMap.set_tag_to_name_pair m tag name).2 = none ∧
          ModuleNameMap.name (ModuleNameMap.set_tag_to_name_pair m tag name).1 tag =
            name))) ∧
    CMD_EXEC_FATAL_ERROR = 1 ∧
    (ModuleNameMap.set_tag_to_name_pair ModuleNameMap.empty "tagA" "x").2 = none ∧
    ModuleNameMap.name
      (ModuleNameMap.set_tag_to_name_pair ModuleNameMap.empty "tagA" "x").1 "tagA" = "x" := by
  refine ⟨fun m tag name => ?_, rfl, by decide, by decide⟩
  by_cases hc : StrMap.find m.name2tags_ name ≠ none ∧
      StrMap.find m.name2tags_ name ≠ some tag
  · have h2 : (ModuleNameMap.set_tag_to_name_pair m tag name).2 =
        some CMD_EXEC_FATAL_ERROR := by
      unfold ModuleNameMap.set_tag_to_name_pair
      rw [if_pos hc]
    exact ⟨by rw [h2]; decide, Or.inl h2⟩
  · have h2 : (ModuleNameMap.set_tag_to_name_pair m tag name).2 = none := by
      unfold ModuleNameMap.set_tag_to_name_pair
      rw [if_neg hc]
    refine ⟨by rw [h2]; exact fun h => Option.noConfusion h, Or.inr ⟨h2, ?_⟩⟩
    unfold ModuleNameMap.name
    rw [set_tag_to_name_pair_state m tag name (by rw [h2]; exact fun h => Option.noConfusion h),
      strMap_find_assign]

/-! ## Claims on the naming functions -/

/-- C14: for every circuit library, circuit model, mux size and postfix,
`generate_verilog_mux_subckt_name` returns `<model_name> + "_size" + decimal(mux_size) +
postfix` when the model type is MUX and `<model_name> + "_mux" + postfix` when it is LUT;
for every other model type the assertion fails and no name is returned. -/
theorem generate_verilog_mux_subckt_name_spec (circuit_lib : CircuitLibrary)
    (circuit_model : CircuitModelId) (mux_size : Nat) (postfix_str : String) :
    generate_verilog_mux_subckt_name circuit_lib circuit_model mux_size postfix_str =
      match circuit_lib.model_type circuit_model with
      | e_spice_model_type.SPICE_MODEL_MUX =>
        Res.val (circuit_lib.model_name circuit_model ++ "_size" ++ to_string mux_size ++
          postfix_str)
      | e_spice_model_type.SPICE_MODEL_LUT =>
        Res.val (circuit_lib.model_name circuit_model ++ "_mux" ++ postfix_str)
      | _ => Res.assert_fail := by
  unfold generate_verilog_mux_subckt_name
  cases h : circuit_lib.model_type circuit_model <;> simp <;>
    (intro hp; subst hp; simp)

/-- C15: for every node level `n` and flag `add_buffer_postfix`,
`generate_verilog_mux_node_name` returns `"mux_l" + decimal(n) + "_in_buf"` when the flag is
true and `"mux_l" + decimal(n) + "_in"` when it is false. -/
theorem generate_verilog_mux_node_name_spec (node_level : Nat) :
    generate_verilog_mux_node_name node_level true =
      "mux_l" ++ to_string node_level ++ "_in_buf" ∧
    generate_verilog_mux_node_name node_level false =
      "mux_l" ++ to_string node_level ++ "_in" ∧
    generate_verilog_mux_node_name 3 true = "mux_l3_in_buf" ∧
    generate_verilog_mux_node_name 12 false = "mux_l12_in" := by
  refine ⟨?_, ?_, by decide, by decide⟩
  · unfold generate_verilog_mux_node_name
    simp only [if_true]
    rw [String.append_assoc ("mux_l" ++ to_string node_level) "_in" "_buf"]
    rfl
  · unfold generate_verilog_mux_node_name
    simp

/-! ## Claims on the bitstream compression metrics -/

theorem regional_max_foldl (regions : List (List Bool)) (acc : Nat) :
    acc ≤ regions.foldl (fun m region => if m < region.length then region.length else m) acc ∧
    (∀ r ∈ regions, r.length ≤
      regions.foldl (fun m region => if m < region.length then region.length else m) acc) ∧
    (regions.foldl (fun m region => if m < region.length then region.length else m) acc = acc ∨
      ∃ r ∈ regions, r.length =
        regions.foldl (fun m region => if m < region.length then region.length else m) acc) := by
  induction regions generalizing acc with
  | nil => simp
  | cons x xs ih =>
    simp only [List.foldl_cons]
    obtain ⟨h1, h2, h3⟩ := ih (if acc < x.length then x.length else acc)
    have hacc : acc ≤ (if acc < x.length then x.length else acc) := by
      split_ifs <;> omega
    have hx : x.length ≤ (if acc < x.length then x.length else acc) := by
      split_ifs <;> omega
    refine ⟨le_trans hacc h1, ?_, ?_⟩
    · intro r hr
      rcases List.mem_cons.mp hr with rfl | hr
      · exact le_trans hx h1
      · exact h2 r hr
    · rcases h3 with h3 | ⟨r, hr, h3⟩
      · by_cases hlt : acc < x.length
        · right
          refine ⟨x, List.mem_cons_self _ _, ?_⟩
          rw [h3, if_pos hlt]
        · left
          rw [h3, if_neg hlt]
      · exact Or.inr ⟨r, List.mem_cons_of_mem _ hr, h3⟩

/-- C17: for every list of regions, `find_fabric_regional_bitstream_max_size` is the
maximum element count over all regions: no region is longer, and some region has exactly
this size unless there are no regions, in which case it is 0. A zero-length region counts
as 0: alone it gives 0 and next to other regions it does not change the result. Region
sizes `[5, 3, 8, 8]` give 8 and no regions give 0. -/
theorem regional_max_size_spec :
    (∀ regions : List (List Bool),
      (∀ r ∈ regions, r.length ≤ find_fabric_regional_bitstream_max_size regions) ∧
      (regions = [] ∨
        ∃ r ∈ regions, r.length = find_fabric_regional_bitstream_max_size regions) ∧
      find_fabric_regional_bitstream_max_size ([] :: regions) =
        find_fabric_regional_bitstream_max_size regions) ∧
    find_fabric_regional_bitstream_max_size [] = 0 ∧
    find_fabric_regional_bitstream_max_size [[]] = 0 ∧
    find_fabric_regional_bitstream_max_size
      [List.replicate 5 false, List.replicate 3 true, List.replicate 8 false,
        List.replicate 8 true] = 8 := by
  refine ⟨fun regions => ?_, rfl, rfl, by decide⟩
  obtain ⟨_, h2, h3⟩ := regional_max_foldl regions 0
  refine ⟨h2, ?_, rfl⟩
  rcases h3 with h3 | h3
  · cases regions with
    | nil => exact Or.inl rfl
    | cons x xs =>
      right
      have hx := h2 x (List.mem_cons_self _ _)
      refine ⟨x, List.mem_cons_self _ _, ?_⟩
      unfold find_fabric_regional_bitstream_max_size
      rw [h3] at hx ⊢
      omega
  · exact Or.inr h3

/-- C16: for every bit sequence and skip value,
`find_configuration_chain_fabric_bitstream_size_to_be_skipped` is the length `n` of the
maximal leading run of elements equal to the skip value: `n` is at most the length of the
sequence, the first `n` elements equal the skip value, and the element at position `n`
(if any) does not. It is 0 when the sequence is empty or its first element differs from
the skip value; `([0,0,0,1,0], 0)` gives 3 and `([1,0,0], 0)` gives 0. -/
theorem chain_skip_length_spec :
    (∀ (bits : List Bool) (skip : Bool),
      find_configuration_chain_fabric_bitstream_size_to_be_skipped bits skip ≤ bits.length ∧
      (∀ i, i < find_configuration_chain_fabric_bitstream_size_to_be_skipped bits skip →
        bits[i]? = some skip) ∧
      bits[find_configuration_chain_fabric_bitstream_size_to_be_skipped bits skip]? ≠
        some skip) ∧
    (∀ skip : Bool, find_configuration_chain_fabric_bitstream_size_to_be_skipped [] skip = 0) ∧
    (∀ (first : Bool) (rest : List Bool) (skip : Bool), first ≠ skip →
      find_configuration_chain_fabric_bitstream_size_to_be_skipped (first :: rest) skip = 0) ∧
    find_configuration_chain_fabric_bitstream_size_to_be_skipped
      [false, false, false, true, false] false = 3 ∧
    find_configuration_chain_fabric_bitstream_size_to_be_skipped
      [true, false, false] false = 0 := by
  refine ⟨fun bits skip => ?_, fun _ => rfl, ?_, by decide, by decide⟩
  · induction bits with
    | nil => simp [find_configuration_chain_fabric_bitstream_size_to_be_skipped]
    | cons x xs ih =>
      by_cases hx : skip = x
      · subst hx
        obtain ⟨h1, h2, h3⟩ := ih
        simp only [find_configuration_chain_fabric_bitstream_size_to_be_skipped, ne_eq,
          not_true_eq_false, if_false, List.length_cons, List.getElem?_cons_succ]
        refine ⟨by omega, ?_, h3⟩
        intro i hi
        cases i with
        | zero => simp
        | succ i => simpa using h2 i (by omega)
      · simp [find_configuration_chain_fabric_bitstream_size_to_be_skipped, hx]
        exact fun h => hx h.symm
  · intro first rest skip hne
    simp [find_configuration_chain_fabric_bitstream_size_to_be_skipped]
    exact fun h => hne h.symm

/-! ## Further claim on the index in the grandparent block -/

/-- Indexing the concatenated bit lists of the candidates after the bits of the candidates
that precede `p` lands in the bit list of `p`. -/
theorem flat_layout_getElem? (bm : BitstreamManager) (p : ConfigBlockId)
    (l : List ConfigBlockId) (hp : p ∈ l) (i : Nat) (hi : i < (bm.block_bits p).length) :
    ((l.map bm.block_bits).flatten)[
      ((preceding_siblings p l).map (fun s => (bm.block_bits s).length)).sum + i]? =
      (bm.block_bits p)[i]? := by
  induction l with
  | nil => simp at hp
  | cons x xs ih =>
    by_cases hx : x = p
    · subst hx
      have htw : preceding_siblings x (x :: xs) = [] := by
        simp [preceding_siblings]
      rw [htw]
      simp only [List.map_cons, List.flatten_cons, List.map_nil, List.sum_nil, Nat.zero_add]
      exact List.getElem?_append_left hi
    · have hmem : p ∈ xs := by
        rcases List.mem_cons.mp hp with h1 | h1
        · exact absurd h1.symm hx
        · exact h1
      have htw : preceding_siblings p (x :: xs) = x :: preceding_siblings p xs := by
        simp [preceding_siblings, List.takeWhile_cons, hx]
      rw [htw]
      simp only [List.map_cons, List.flatten_cons, List.sum_cons]
      rw [List.getElem?_append_right (by omega)]
      rw [show (bm.block_bits x).length +
          ((preceding_siblings p xs).map (fun s => (bm.block_bits s).length)).sum + i -
          (bm.block_bits x).length =
          ((preceding_siblings p xs).map (fun s => (bm.block_bits s).length)).sum + i by omega]
      exact ih hmem

/-- C19: for every bit with owner `P` and grandparent `G = parent(P)` such that `P` occurs
in `children(G)` and the bit occurs in `bits(P)`,
`find_bitstream_manager_config_bit_index_in_grandparent_block(bit)` is the offset of the
bit in the flattened two-level layout: the concatenation of `bits(c)` over `c` in
`children(G)`, in order, holds the bit at the returned offset. This holds in particular
when every child of `G` that precedes `P` is a leaf. -/
theorem grandparent_index_is_flat_offset (bm : BitstreamManager) (bit : ConfigBitId)
    (hP : bm.bit_parent_block bit ∈
      bm.block_children (bm.block_parent (bm.bit_parent_block bit)))
    (hbit : bit ∈ bm.block_bits (bm.bit_parent_block bit)) :
    (((bm.block_children (bm.block_parent (bm.bit_parent_block bit))).map
      bm.block_bits).flatten)[
        find_bitstream_manager_config_bit_index_in_grandparent_block bm bit]? =
      some bit := by
  obtain ⟨hlt, hget, _⟩ := bit_index_loop_position bit _ hbit
  unfold find_bitstream_manager_config_bit_index_in_grandparent_block
  simp only []
  rw [grandparent_index_loop_eq bm bit _ _ 0 hP, Nat.zero_add]
  unfold find_bitstream_manager_config_bit_index_in_parent_block
  rw [flat_layout_getElem? bm _ _ hP _ hlt]
  exact hget

/-- Instance of C19 on the sample tree: bit 12 of block 3 is at offset 3 of the layout
`[10, 11, 14, 12]` of block 0, whose child 2 owns no bits directly. -/
theorem grandparent_index_is_flat_offset_witness :
    (sample_manager.bit_parent_block ⟨12⟩ ∈ sample_manager.block_children
        (sample_manager.block_parent (sample_manager.bit_parent_block ⟨12⟩)) ∧
      (⟨12⟩ : ConfigBitId) ∈
        sample_manager.block_bits (sample_manager.bit_parent_block ⟨12⟩)) ∧
    ((sample_manager.block_children
      (sample_manager.block_parent (sample_manager.bit_parent_block ⟨12⟩))).map
        sample_manager.block_bits).flatten = [⟨10⟩, ⟨11⟩, ⟨14⟩, ⟨12⟩] ∧
    find_bitstream_manager_config_bit_index_in_grandparent_block sample_manager ⟨12⟩ = 3 ∧
    (((sample_manager.block_children
      (sample_manager.block_parent (sample_manager.bit_parent_block ⟨12⟩))).map
        sample_manager.block_bits).flatten)[
          find_bitstream_manager_config_bit_index_in_grandparent_block
            sample_manager ⟨12⟩]? = some ⟨12⟩ :=
  ⟨⟨by decide, by decide⟩, by decide, by decide,
    grandparent_index_is_flat_offset sample_manager ⟨12⟩ (by decide) (by decide)⟩

/-! ## Further claim on `find_bitstream_manager_block_hierarchy` -/

/-- C20: the stop is at the first block named `N` met while walking upward from the
target, inclusive. For every block `b` and non-empty name `N` carried by the `k`-th
ancestor of `b` (all blocks on the way up being valid),
`find_bitstream_manager_block_hierarchy(b, N)` returns a list whose first element has
name `N` and none of whose other elements has name `N`; when `b` itself is named `N` the
list is exactly `[b]`. -/
theorem find_hierarchy_stops_at_first_match (bm : BitstreamManager) (b : ConfigBlockId)
    (N : String) (k : Nat) (hN : N ≠ "")
    (hvalid : ∀ j, j ≤ k → bm.valid_block_id (ancestor bm j b) = true)
    (hname : bm.block_name (ancestor bm k b) = N) :
    ∃ chain,
      (∀ fuel, k < fuel →
        find_bitstream_manager_block_hierarchy fuel bm b N = some chain) ∧
      (∃ first, chain.head? = some first ∧ bm.block_name first = N) ∧
      (∀ i x, 0 < i → chain[i]? = some x → bm.block_name x ≠ N) ∧
      (bm.block_name b = N → chain = [b]) := by
  classical
  have hex : ∃ j, bm.block_name (ancestor bm j b) = N := ⟨k, hname⟩
  have hmk : Nat.find hex ≤ k := Nat.find_min' hex hname
  obtain ⟨hlen, hget, hhead, _, _⟩ := upward_chain_reverse_shape bm (Nat.find hex) b
  refine ⟨(upward_chain bm (Nat.find hex) b).reverse, ?_,
    ⟨_, hhead, Nat.find_spec hex⟩, ?_, ?_⟩
  · intro fuel hfuel
    unfold find_bitstream_manager_block_hierarchy
    rw [block_hierarchy_loop_walk bm N (Nat.find hex) fuel b [] (by omega)
      (fun j hj => hvalid j (le_trans hj hmk))
      (fun j hj h => Nat.find_min hex hj h.2)
      (Or.inl ⟨hN, Nat.find_spec hex⟩)]
    simp
  · intro i x hi hx
    by_cases hle : i ≤ Nat.find hex
    · rw [hget i hle] at hx
      cases hx
      exact Nat.find_min hex (by omega)
    · have hnone : ((upward_chain bm (Nat.find hex) b).reverse)[i]? = none := by
        rw [List.getElem?_eq_none_iff, hlen]
        omega
      rw [hnone] at hx
      cases hx
  · intro hb
    have h0 : Nat.find hex = 0 := by
      have := Nat.find_min' hex (show bm.block_name (ancestor bm 0 b) = N from hb)
      omega
    rw [h0]
    rfl

/-- Instances of C20 on the sample tree: from block 4 the stop name `mid` gives `[2, 4]`,
and the name `leaf` of block 4 itself gives `[4]`. -/
theorem find_hierarchy_stops_at_first_match_witness :
    ("leaf" ≠ "" ∧
      (∀ j, j ≤ 0 → sample_manager.valid_block_id (ancestor sample_manager j ⟨4⟩) = true) ∧
      sample_manager.block_name (ancestor sample_manager 0 ⟨4⟩) = "leaf") ∧
    find_bitstream_manager_block_hierarchy 1 sample_manager ⟨4⟩ "leaf" = some [⟨4⟩] ∧
    find_bitstream_manager_block_hierarchy 3 sample_manager ⟨4⟩ "mid" = some [⟨2⟩, ⟨4⟩] ∧
    ∃ chain,
      (∀ fuel, 0 < fuel →
        find_bitstream_manager_block_hierarchy fuel sample_manager ⟨4⟩ "leaf" =
          some chain) ∧
      (∃ first, chain.head? = some first ∧ sample_manager.block_name first = "leaf") ∧
      (∀ i x, 0 < i → chain[i]? = some x → sample_manager.block_name x ≠ "leaf") ∧
      (sample_manager.block_name ⟨4⟩ = "leaf" → chain = [⟨4⟩]) :=
  ⟨⟨by decide, by decide, by decide⟩, by decide, by decide,
    find_hierarchy_stops_at_first_match sample_manager ⟨4⟩ "leaf" 0 (by decide) (by decide)
      (by decide)⟩

/-! ## Claim on `FabricTile::build_unique_tiles` -/

/-- Invariant of the loop of `build_unique_tiles`, for a reflexive equality and pairwise
distinct tile coordinates. If every tile visited so far has a table entry that names a
representative with an equal signature, and no two representatives have equal signatures,
then the same holds after the loop for all tiles; the loop adds one table entry per
tile. -/
theorem build_unique_tiles_loop_inv {σ : Type} (dev : DeviceRRGSB σ)
    (coords : FabricTileId → Nat × Nat) (hrefl : ∀ a, dev.equal a a = true) :
    ∀ (ids visited reps : List FabricTileId) (table : List ((Nat × Nat) × FabricTileId)),
      ((visited ++ ids).map coords).Nodup →
      (∀ t ∈ visited, ∃ r ∈ reps,
        (table.find? (fun e => decide (e.1 = coords t))).map Prod.snd = some r ∧
        dev.equal (dev.signature r) (dev.signature t) = true) →
      reps.Pairwise (fun a b => dev.equal (dev.signature a) (dev.signature b) = false) →
      (∀ t ∈ visited ++ ids, ∃ r ∈ (build_unique_tiles_loop dev coords ids reps table).1,
        ((build_unique_tiles_loop dev coords ids reps table).2.find?
          (fun e => decide (e.1 = coords t))).map Prod.snd = some r ∧
        dev.equal (dev.signature r) (dev.signature t) = true) ∧
      (build_unique_tiles_loop dev coords ids reps table).1.Pairwise
        (fun a b => dev.equal (dev.signature a) (dev.signature b) = false) ∧
      (build_unique_tiles_loop dev coords ids reps table).2.length =
        table.length + ids.length := by
  intro ids
  induction ids with
  | nil =>
    intro visited reps table _ hvis hpw
    simp only [build_unique_tiles_loop, List.append_nil, List.length_nil, Nat.add_zero]
    exact ⟨hvis, hpw, trivial⟩
  | cons tile rest ih =>
    intro visited reps table hnd hvis hpw
    have hnd2 : (((visited ++ [tile]) ++ rest).map coords).Nodup := by
      simpa [List.append_assoc] using hnd
    have hfresh : ∀ t ∈ visited, coords tile ≠ coords t := by
      intro t ht heq
      rw [List.map_append, List.map_cons] at hnd
      have := (List.nodup_append.mp hnd).2.2
      exact this (List.mem_map_of_mem coords ht) (heq ▸ List.mem_cons_self _ _)
    -- the table entries of the tiles visited before are not touched by the new entry
    have hkeep : ∀ (r0 : FabricTileId) (newreps : List FabricTileId),
        (∀ r ∈ reps, r ∈ newreps) → r0 ∈ newreps →
        dev.equal (dev.signature r0) (dev.signature tile) = true →
        ∀ t ∈ visited ++ [tile], ∃ r ∈ newreps,
          (((coords tile, r0) :: table).find?
            (fun e => decide (e.1 = coords t))).map Prod.snd = some r ∧
          dev.equal (dev.signature r) (dev.signature t) = true := by
      intro r0 newreps hsub hr0 heq0 t ht
      rcases List.mem_append.mp ht with ht | ht
      · obtain ⟨r, hr, hfind, heq⟩ := hvis t ht
        refine ⟨r, hsub r hr, ?_, heq⟩
        rw [List.find?_cons_of_neg _ (by simpa using hfresh t ht)]
        exact hfind
      · obtain rfl : t = tile := by simpa using ht
        exact ⟨r0, hr0, by simp, heq0⟩
    cases hfind : find_equal_representative dev reps tile with
    | some r =>
      have hr : r ∈ reps := List.mem_of_find?_eq_some hfind
      have heq : dev.equal (dev.signature r) (dev.signature tile) = true := by
        simpa using List.find?_some hfind
      have := ih (visited ++ [tile]) reps ((coords tile, r) :: table) hnd2
        (hkeep r reps (fun _ h => h) hr heq) hpw
      simp only [build_unique_tiles_loop, hfind]
      simpa [List.append_assoc, Nat.add_assoc, Nat.add_comm 1] using this
    | none =>
      have hnone : ∀ r ∈ reps,
          dev.equal (dev.signature r) (dev.signature tile) = false := by
        intro r hr
        have := List.find?_eq_none.mp hfind r hr
        simpa using this
      have hpw2 : (reps ++ [tile]).Pairwise
          (fun a b => dev.equal (dev.signature a) (dev.signature b) = false) := by
        rw [List.pairwise_append]
        refine ⟨hpw, List.pairwise_singleton _ _, ?_⟩
        intro a ha b hb
        obtain rfl : b = tile := by simpa using hb
        exact hnone a ha
      have := ih (visited ++ [tile]) (reps ++ [tile]) ((coords tile, tile) :: table) hnd2
        (hkeep tile (reps ++ [tile]) (fun _ h => List.mem_append_left _ h)
          (List.mem_append_right _ (List.mem_singleton_self _)) (hrefl _)) hpw2
      simp only [build_unique_tiles_loop, hfind]
      simpa [List.append_assoc, Nat.add_assoc, Nat.add_comm 1] using this

/-- C18: after `build_unique_tiles`, with a structural equality that is reflexive,
symmetric and transitive and with pairwise distinct tile coordinates, for every two tiles
with coordinates `c1` and `c2`: `unique_tile(c1) = unique_tile(c2)` if and only if the
injected equality holds between the signatures of the two tiles. The unique tile of a
coordinate has a signature equal to the one of the tile at that coordinate, and the
number of distinct representatives in the table is at most the number of tiles. -/
theorem unique_tile_eq_iff_equal {σ : Type} (ft : FabricTile σ)
    (hequal : IsStructuralEquality ft.device_rr_gsb_.equal)
    (hcoords : (ft.ids_.map ft.coords_).Nodup)
    (t1 t2 : FabricTileId) (h1 : t1 ∈ ft.ids_) (h2 : t2 ∈ ft.ids_) :
    (ft.build_unique_tiles.unique_tile (ft.coords_ t1) =
        ft.build_unique_tiles.unique_tile (ft.coords_ t2) ↔
      ft.device_rr_gsb_.equal (ft.device_rr_gsb_.signature t1)
        (ft.device_rr_gsb_.signature t2) = true) ∧
    ft.device_rr_gsb_.equal
      (ft.device_rr_gsb_.signature (ft.build_unique_tiles.unique_tile (ft.coords_ t1)))
      (ft.device_rr_gsb_.signature t1) = true ∧
    ((ft.build_unique_tiles.unique_tile_ids_.map Prod.snd).dedup).length ≤
      ft.ids_.length := by
  obtain ⟨hrefl, hsymm, htrans⟩ := hequal
  obtain ⟨hvis, hpw, hlen⟩ := build_unique_tiles_loop_inv ft.device_rr_gsb_ ft.coords_ hrefl
    ft.ids_ [] [] [] (by simpa using hcoords) (by simp) List.Pairwise.nil
  have hut : ∀ t ∈ ft.ids_, ∃ r ∈
      (build_unique_tiles_loop ft.device_rr_gsb_ ft.coords_ ft.ids_ [] []).1,
      ft.build_unique_tiles.unique_tile (ft.coords_ t) = r ∧
      ft.device_rr_gsb_.equal (ft.device_rr_gsb_.signature r)
        (ft.device_rr_gsb_.signature t) = true := by
    intro t ht
    obtain ⟨r, hr, hfind, heq⟩ := hvis t (by simpa using ht)
    refine ⟨r, hr, ?_, heq⟩
    obtain ⟨e, he, rfl⟩ := Option.map_eq_some'.mp hfind
    simp only [FabricTile.unique_tile, FabricTile.build_unique_tiles, he]
  obtain ⟨r1, hr1, hu1, he1⟩ := hut t1 h1
  obtain ⟨r2, hr2, hu2, he2⟩ := hut t2 h2
  refine ⟨?_, by rw [hu1]; exact he1, ?_⟩
  · rw [hu1, hu2]
    constructor
    · intro h
      subst h
      exact htrans _ _ _ (hsymm _ _ he1) he2
    · intro h
      by_contra hne
      have hsym : Symmetric (fun a b : FabricTileId =>
          ft.device_rr_gsb_.equal (ft.device_rr_gsb_.signature a)
            (ft.device_rr_gsb_.signature b) = false) := by
        intro a b hab
        cases hba : ft.device_rr_gsb_.equal (ft.device_rr_gsb_.signature b)
          (ft.device_rr_gsb_.signature a) with
        | false => rfl
        | true => rw [hsymm _ _ hba] at hab; exact Bool.noConfusion hab
      have hfalse := hpw.forall hsym hr1 hr2 hne
      have htrue := htrans _ _ _ (htrans _ _ _ he1 h) (hsymm _ _ he2)
      simp only [] at hfalse
      rw [htrue] at hfalse
      exact Bool.noConfusion hfalse
  · have hl : (ft.build_unique_tiles.unique_tile_ids_.map Prod.snd).length =
        ft.ids_.length := by
      simp only [FabricTile.build_unique_tiles, List.length_map, hlen, List.length_nil,
        Nat.zero_add]
    rw [← hl]
    exact (List.dedup_sublist _).length_le

theorem sample_fabric_equality : IsStructuralEquality sample_fabric.device_rr_gsb_.equal := by
  refine ⟨?_, ?_, ?_⟩ <;> simp [sample_fabric]

/-- Instance of C18 on the sample grid: the tiles 0 and 2 have the same parity and the
same unique tile 0; the grid of four tiles has two representatives. -/
theorem unique_tile_eq_iff_equal_witness :
    (IsStructuralEquality sample_fabric.device_rr_gsb_.equal ∧
      (sample_fabric.ids_.map sample_fabric.coords_).Nodup ∧
      (⟨0⟩ : FabricTileId) ∈ sample_fabric.ids_ ∧
      (⟨2⟩ : FabricTileId) ∈ sample_fabric.ids_) ∧
    sample_fabric.build_unique_tiles.unique_tile (sample_fabric.coords_ ⟨2⟩) = ⟨0⟩ ∧
    ((sample_fabric.build_unique_tiles.unique_tile_ids_.map Prod.snd).dedup).length = 2 ∧
    ((sample_fabric.build_unique_tiles.unique_tile (sample_fabric.coords_ ⟨0⟩) =
        sample_fabric.build_unique_tiles.unique_tile (sample_fabric.coords_ ⟨2⟩) ↔
      sample_fabric.device_rr_gsb_.equal (sample_fabric.device_rr_gsb_.signature ⟨0⟩)
        (sample_fabric.device_rr_gsb_.signature ⟨2⟩) = true) ∧
    sample_fabric.device_rr_gsb_.equal
      (sample_fabric.device_rr_gsb_.signature
        (sample_fabric.build_unique_tiles.unique_tile (sample_fabric.coords_ ⟨0⟩)))
      (sample_fabric.device_rr_gsb_.signature ⟨0⟩) = true ∧
    ((sample_fabric.build_unique_tiles.unique_tile_ids_.map Prod.snd).dedup).length ≤
      sample_fabric.ids_.length) :=
  ⟨⟨sample_fabric_equality, by decide, by decide, by decide⟩, by decide, by decide,
    unique_tile_eq_iff_equal sample_fabric sample_fabric_equality (by decide)
      ⟨0⟩ ⟨2⟩ (by decide) (by decide)⟩

/-! ## Further claim on `reverse_split_bit_path_to_blocks` -/

theorem not_mem_of_find_first_of_none (c : Char) (path : List Char)
    (h : find_first_of c path = none) : c ∉ path := by
  induction path with
  | nil => simp
  | cons x xs ih =>
    by_cases hx : x = c
    · simp [find_first_of, hx] at h
    · simp only [find_first_of, hx, if_false, Option.map_eq_none'] at h
      intro hmem
      rcases List.mem_cons.mp hmem with h1 | h1
      · exact hx h1.symm
      · exact ih h h1

/-- The position returned by `find_first_of` splits the path at its first dot. -/
theorem split_of_find_first_of_some (c : Char) (path : List Char) (index : Nat)
    (h : find_first_of c path = some index) :
    c ∉ path.take index ∧ path = path.take index ++ c :: path.drop (index + 1) := by
  induction path generalizing index with
  | nil => simp [find_first_of] at h
  | cons x xs ih =>
    by_cases hx : x = c
    · simp only [find_first_of, hx, if_true, Option.some.injEq] at h
      subst h
      simp [hx]
    · simp only [find_first_of, hx, if_false, Option.map_eq_some'] at h
      obtain ⟨j, hj, rfl⟩ := h
      obtain ⟨h1, h2⟩ := ih j hj
      refine ⟨?_, ?_⟩
      · simp only [List.take_succ_cons, List.mem_cons, not_or]
        exact ⟨fun e => hx e.symm, h1⟩
      · simp only [List.take_succ_cons, List.drop_succ_cons, List.cons_append]
        rw [← h2]

theorem drop_trailing_empty_cons (a : List Char) (rest : List (List Char))
    (hrest : rest ≠ []) :
    drop_trailing_empty (a :: rest) = a :: drop_trailing_empty rest := by
  cases rest with
  | nil => exact absurd rfl hrest
  | cons b r =>
    unfold drop_trailing_empty
    rw [List.getLast?_cons_cons, List.dropLast_cons₂]
    split_ifs <;> rfl

/-- The loop puts in front of the vector the segments of the path, last segment first,
leaving out an empty last segment. -/
theorem reverse_split_loop_segments (n : Nat) :
    ∀ (path : List Char) (blocks : List (List Char)), path.length ≤ n →
      reverse_split_loop path blocks =
        (drop_trailing_empty (List.splitOn '.' path)).reverse ++ blocks := by
  induction n with
  | zero =>
    intro path blocks hlen
    obtain rfl : path = [] := List.length_eq_zero.mp (by omega)
    rw [reverse_split_loop_none [] blocks rfl]
    simp [drop_trailing_empty, List.splitOn]
  | succ n ih =>
    intro path blocks hlen
    cases hfind : find_first_of '.' path with
    | none =>
      have hno := not_mem_of_find_first_of_none _ _ hfind
      have hsplit : List.splitOn '.' path = [path] := by
        unfold List.splitOn
        exact List.splitOnP_eq_single (fun c => c == '.') path
          (fun x hx e => hno (beq_iff_eq.mp e ▸ hx))
      rw [reverse_split_loop_none _ _ hfind, hsplit]
      by_cases hp : path = []
      · subst hp
        simp [drop_trailing_empty]
      · have hl : path.length ≠ 0 := fun h0 => hp (List.length_eq_zero.mp h0)
        simp [drop_trailing_empty, hp, hl]
    | some index =>
      obtain ⟨hno, hpath⟩ := split_of_find_first_of_some _ _ _ hfind
      have hlt : index < path.length := by
        have h1 := congrArg List.length hpath
        simp only [List.length_append, List.length_cons, List.length_take,
          List.length_drop] at h1
        omega
      have hsplit : List.splitOn '.' path =
          path.take index :: List.splitOn '.' (path.drop (index + 1)) := by
        conv_lhs => rw [hpath]
        unfold List.splitOn
        exact List.splitOnP_first (fun c => c == '.') (path.take index)
          (fun x hx e => hno (beq_iff_eq.mp e ▸ hx)) '.' (by simp) _
      rw [reverse_split_loop_some _ _ _ hfind, hsplit,
        drop_trailing_empty_cons _ _ (by unfold List.splitOn; exact List.splitOnP_ne_nil _ _),
        ih _ _ (by simp only [List.length_drop]; omega)]
      simp

/-- C21 as stated fails on the non-empty path `"a."`: its segments are `"a"` and the empty
segment after the trailing dot, so the stated result is `["", "a"]`, but the code returns
`["a"]`. -/
theorem reverse_split_drops_trailing_empty :
    "a." ≠ "" ∧
    (dot_segments "a.").reverse = ["", "a"] ∧
    reverse_split_bit_path_to_blocks "a." = ["a"] ∧
    reverse_split_bit_path_to_blocks "a." ≠ (dot_segments "a.").reverse := by
  have h : reverse_split_bit_path_to_blocks "a." = ["a"] := by
    simp [reverse_split_bit_path_to_blocks, reverse_split_loop, find_first_of]
  refine ⟨by decide, by decide, h, ?_⟩
  rw [h]
  decide

/-- C21 (amended): for every string `path`, `reverse_split_bit_path_to_blocks(path)` is
the list of the `'.'`-separated segments of `path` in reverse order, last segment first,
where empty segments from leading or consecutive dots are included and an empty last
segment (after a trailing dot, or the only segment of the empty path) is left out. -/
theorem reverse_split_eq_trimmed_segments (path : String) :
    reverse_split_bit_path_to_blocks path = (dot_segments_trimmed path).reverse := by
  unfold reverse_split_bit_path_to_blocks dot_segments_trimmed
  rw [reverse_split_loop_segments path.data.length path.data [] (le_refl _)]
  simp [List.map_reverse]

/-! ## Claim on the assertion of `rec_find_bitstream_manager_block_sum_of_bits` -/

theorem sum_of_bits_loop_ne_assert_fail (f : ConfigBlockId → Res Nat)
    (hf : ∀ c, f c ≠ Res.assert_fail) (l : List ConfigBlockId) (acc : Nat) :
    sum_of_bits_loop f l acc ≠ Res.assert_fail := by
  induction l generalizing acc with
  | nil => simp [sum_of_bits_loop]
  | cons x xs ih =>
    simp only [sum_of_bits_loop]
    cases hx : f x with
    | val v => exact ih _
    | assert_fail => exact absurd hx (hf x)
    | diverge => simp

/-- Without a block that owns both bits and children the assertion never fails. -/
theorem sum_of_bits_ne_assert_fail (bm : BitstreamManager) (hxor : ChildrenXorBits bm) :
    ∀ (fuel : Nat) (block : ConfigBlockId),
      rec_find_bitstream_manager_block_sum_of_bits bm fuel block ≠ Res.assert_fail := by
  intro fuel
  induction fuel with
  | zero => intro block; simp [rec_find_bitstream_manager_block_sum_of_bits]
  | succ fuel ih =>
    intro block
    by_cases hbits : 0 < (bm.block_bits block).length
    · have hch : bm.block_children block = [] := by
        rcases hxor block with h | h
        · rw [h] at hbits
          exact absurd hbits (by simp)
        · exact h
      rw [sum_of_bits_leaf bm fuel block hch]
      simp
    · simp only [rec_find_bitstream_manager_block_sum_of_bits, if_neg hbits]
      exact sum_of_bits_loop_ne_assert_fail _ ih _ _

/-- C22: for every block that directly owns at least one bit,
`rec_find_bitstream_manager_block_sum_of_bits` asserts that the block owns no children:
it returns exactly `bits(block).size()` when the block owns no children and ends in the
assertion failure, without a count, when the block owns children as well. When no block
owns both bits and children the assertion never fails, for any block and fuel. On the
corrupted sample, block 0 owns bit 10 and child 1 and the call fails the assertion. -/
theorem sum_of_bits_assertion :
    (∀ (bm : BitstreamManager) (fuel : Nat) (block : ConfigBlockId),
      0 < (bm.block_bits block).length →
      rec_find_bitstream_manager_block_sum_of_bits bm (fuel + 1) block =
        if bm.block_children block = [] then Res.val (bm.block_bits block).length
        else Res.assert_fail) ∧
    (∀ bm : BitstreamManager, ChildrenXorBits bm → ∀ (fuel : Nat) (block : ConfigBlockId),
      rec_find_bitstream_manager_block_sum_of_bits bm fuel block ≠ Res.assert_fail) ∧
    rec_find_bitstream_manager_block_sum_of_bits corrupt_manager 1 ⟨0⟩ = Res.assert_fail ∧
    rec_find_bitstream_manager_block_sum_of_bits sample_manager 1 ⟨1⟩ = Res.val 2 := by
  refine ⟨?_, sum_of_bits_ne_assert_fail, by decide, by decide⟩
  intro bm fuel block hbits
  by_cases hch : bm.block_children block = []
  · rw [if_pos hch, sum_of_bits_leaf bm fuel block hch]
  · rw [if_neg hch]
    simp [rec_find_bitstream_manager_block_sum_of_bits, VTR_ASSERT_SAFE, hbits, hch]

/-! ## Claim on the reverse map of `ModuleNameMap` -/

theorem preceding_sum_add_le (bm : BitstreamManager) (p : ConfigBlockId)
    (l : List ConfigBlockId) (hp : p ∈ l) :
    ((preceding_siblings p l).map (fun s => (bm.block_bits s).length)).sum +
      (bm.block_bits p).length ≤ (l.map (fun s => (bm.block_bits s).length)).sum := by
  induction l with
  | nil => simp at hp
  | cons x xs ih =>
    by_cases hx : x = p
    · subst hx
      have htw : preceding_siblings x (x :: xs) = [] := by simp [preceding_siblings]
      rw [htw]
      simp
    · have hmem : p ∈ xs := by
        rcases List.mem_cons.mp hp with h1 | h1
        · exact absurd h1.symm hx
        · exact h1
      have htw : preceding_siblings p (x :: xs) = x :: preceding_siblings p xs := by
        simp [preceding_siblings, List.takeWhile_cons, hx]
      rw [htw]
      have := ih hmem
      simp only [List.map_cons, List.sum_cons]
      omega

/-- C24: for every bit with owner `P` and grandparent `G` such that `P` occurs in
`children(G)`, the bit occurs in `bits(P)`, `G` owns no bits directly and every child of
`G` is a leaf, `rec_find_bitstream_manager_block_sum_of_bits(G)` returns a count (with any
fuel of at least 2) and
`find_bitstream_manager_config_bit_index_in_grandparent_block(bit)` is strictly less than
that count. -/
theorem grandparent_index_lt_sum_of_bits (bm : BitstreamManager) (bit : ConfigBitId)
    (hP : bm.bit_parent_block bit ∈
      bm.block_children (bm.block_parent (bm.bit_parent_block bit)))
    (hbit : bit ∈ bm.block_bits (bm.bit_parent_block bit))
    (hG : bm.block_bits (bm.block_parent (bm.bit_parent_block bit)) = [])
    (hleaf : ∀ c ∈ bm.block_children (bm.block_parent (bm.bit_parent_block bit)),
      bm.block_children c = []) :
    ∃ total,
      (∀ fuel, rec_find_bitstream_manager_block_sum_of_bits bm (fuel + 2)
        (bm.block_parent (bm.bit_parent_block bit)) = Res.val total) ∧
      find_bitstream_manager_config_bit_index_in_grandparent_block bm bit < total := by
  refine ⟨((bm.block_children (bm.block_parent (bm.bit_parent_block bit))).map
    (fun s => (bm.block_bits s).length)).sum, ?_, ?_⟩
  · intro fuel
    rw [sum_of_bits_node bm (fuel + 1) _ hG, sum_of_bits_loop_leaves bm fuel _ 0 hleaf,
      Nat.zero_add]
  · obtain ⟨hlt, _, _⟩ := bit_index_loop_position bit _ hbit
    have hle := preceding_sum_add_le bm _ _ hP
    unfold find_bitstream_manager_config_bit_index_in_grandparent_block
    simp only []
    rw [grandparent_index_loop_eq bm bit _ _ 0 hP, Nat.zero_add]
    unfold find_bitstream_manager_config_bit_index_in_parent_block
    omega

/-- Instance of C24 on the sample tree: bit 13 of block 4 below block 2, which owns no
bits and whose only child is a leaf, has offset 0 and block 2 counts 1 bit. -/
theorem grandparent_index_lt_sum_of_bits_witness :
    (sample_manager.bit_parent_block ⟨13⟩ ∈ sample_manager.block_children
        (sample_manager.block_parent (sample_manager.bit_parent_block ⟨13⟩)) ∧
      (⟨13⟩ : ConfigBitId) ∈
        sample_manager.block_bits (sample_manager.bit_parent_block ⟨13⟩) ∧
      sample_manager.block_bits
        (sample_manager.block_parent (sample_manager.bit_parent_block ⟨13⟩)) = [] ∧
      ∀ c ∈ sample_manager.block_children
        (sample_manager.block_parent (sample_manager.bit_parent_block ⟨13⟩)),
        sample_manager.block_children c = []) ∧
    find_bitstream_manager_config_bit_index_in_grandparent_block sample_manager ⟨13⟩ = 0 ∧
    rec_find_bitstream_manager_block_sum_of_bits sample_manager 2 ⟨2⟩ = Res.val 1 ∧
    ∃ total,
      (∀ fuel, rec_find_bitstream_manager_block_sum_of_bits sample_manager (fuel + 2)
        (sample_manager.block_parent (sample_manager.bit_parent_block ⟨13⟩)) =
          Res.val total) ∧
      find_bitstream_manager_config_bit_index_in_grandparent_block sample_manager ⟨13⟩ <
        total :=
  ⟨⟨by decide, by decide, by decide, by decide⟩, by decide, by decide,
    grandparent_index_lt_sum_of_bits sample_manager ⟨13⟩ (by decide) (by decide)
      (by decide) (by decide)⟩

theorem bit_index_loop_absent (bit : ConfigBitId) (l : List ConfigBitId) (h : bit ∉ l) :
    bit_index_loop bit l 0 = l.length := by
  induction l with
  | nil => rfl
  | cons x xs ih =>
    have hx : x ≠ bit := fun e => h (e ▸ List.mem_cons_self _ _)
    have hxs : bit ∉ xs := fun e => h (List.mem_cons_of_mem _ e)
    simp only [bit_index_loop, hx, if_false, List.length_cons]
    rw [bit_index_loop_shift, ih hxs]
    omega

/-- C25: for every bit that does not occur in `bits(owner(bit))`,
`find_bitstream_manager_config_bit_index_in_parent_block(bit)` (a total function, with no
error outcome) returns `bits(owner(bit)).size()`, the index one past the last valid
position. -/
theorem bit_index_in_parent_of_absent_bit (bm : BitstreamManager) (bit : ConfigBitId)
    (h : bit ∉ bm.block_bits (bm.bit_parent_block bit)) :
    find_bitstream_manager_config_bit_index_in_parent_block bm bit =
      (bm.block_bits (bm.bit_parent_block bit)).length ∧
    (bm.block_bits (bm.bit_parent_block bit))[
      find_bitstream_manager_config_bit_index_in_parent_block bm bit]? = none := by
  have heq : find_bitstream_manager_config_bit_index_in_parent_block bm bit =
      (bm.block_bits (bm.bit_parent_block bit)).length := bit_index_loop_absent bit _ h
  refine ⟨heq, ?_⟩
  rw [heq, List.getElem?_eq_none_iff]

/-- Instance of C25 on the corrupted sample: bit 20 names block 0 as owner, whose bits are
`[10]`; the returned index is 1. -/
theorem bit_index_in_parent_of_absent_bit_witness :
    (⟨20⟩ : ConfigBitId) ∉
      corrupt_manager.block_bits (corrupt_manager.bit_parent_block ⟨20⟩) ∧
    corrupt_manager.block_bits (corrupt_manager.bit_parent_block ⟨20⟩) = [⟨10⟩] ∧
    find_bitstream_manager_config_bit_index_in_parent_block corrupt_manager ⟨20⟩ = 1 ∧
    (find_bitstream_manager_config_bit_index_in_parent_block corrupt_manager ⟨20⟩ =
      (corrupt_manager.block_bits (corrupt_manager.bit_parent_block ⟨20⟩)).length ∧
    (corrupt_manager.block_bits (corrupt_manager.bit_parent_block ⟨20⟩))[
      find_bitstream_manager_config_bit_index_in_parent_block corrupt_manager ⟨20⟩]? =
        none) :=
  ⟨by decide, by decide, by decide,
    bit_index_in_parent_of_absent_bit corrupt_manager ⟨20⟩ (by decide)⟩

end openfpga
